import Mathlib

/-!
Verification of the CPU ndarray backend of the ViTNeedle repository
(`src/ndarray_backend_cpu.cc`).

Buffers of 32-bit floats are modelled as total functions `ℤ → ℚ` (exact
rational arithmetic: the properties under study concern values, layout and
traversal order, not floating-point rounding, and the spec itself states the
tiled/naive matmul agreement up to rounding order only).  Each C++ routine is
embedded as a fold over the index ranges its loops traverse, writing single
cells through `store`.  The transcendental single-float operations
(`std::log`, `std::exp`, `std::tanh`, `std::pow`), which have no exact
counterpart, are taken as function parameters of the corresponding
macro-generated operators; the properties proved about those operators hold
for every choice of the parameter.
-/

namespace NeedleCpu

/-- A raw scalar buffer: machine memory holding one scalar per cell index. -/
abbrev Buf : Type := ℤ → ℚ

/-- A single array store `buf[c] = v`. -/
def store (o : Buf) (c : ℤ) (v : ℚ) : Buf := fun q => if q = c then v else o q

/-- Embedding of `Fill`: the loop `for i < size: out->ptr[i] = val`. -/
def Fill (out : Buf) (size : ℕ) (val : ℚ) : Buf :=
  (List.range size).foldl (fun o i => store o (i : ℕ) val) out

/-! ### The mixed-radix counter of Compact / EwiseSetitem / ScalarSetitem

The three strided routines advance an index vector like a multi-digit
counter, starting from the last (fastest-varying) dimension.  The carry loop
is easiest to state on the reversed (least-significant-first) lists, which is
what the `…LE` functions below do; the `…BE` wrappers restore the order the
C++ vectors use. -/

/-- Row-major rank of a digit vector: least-significant-first value of a
mixed-radix number with the given radices. -/
def valLE : List ℤ → List ℤ → ℤ
  | s :: ss, d :: ds => d + s * valLE ss ds
  | _, _ => 0

/-- Product of a list of dimension extents. -/
def prodL : List ℤ → ℤ
  | [] => 1
  | s :: ss => s * prodL ss

/-- The carry loop of `Compact`/`EwiseSetitem` on least-significant-first
lists.  `none` models the `if (dim == 0) return;` exit: the most significant
digit overflowed and the enclosing loop returns.  Note the rank-0 case: the
C++ carry loop `for (int dim = n_dim - 1; dim >= 0; --dim)` has an empty
body when `n_dim = 0`, so the function never returns; accordingly the
increment yields `some []` (continue) rather than `none`. -/
def incrLE : List ℤ → List ℤ → Option (List ℤ)
  | [], [] => some []
  | [s], [d] => if d + 1 < s then some [d + 1] else none
  | s :: ss, d :: ds =>
      if d + 1 < s then some ((d + 1) :: ds)
      else (incrLE ss ds).map (fun r => 0 :: r)
  | _, _ => none

/-- The carry loop of `ScalarSetitem` on least-significant-first lists: same
increment, but with no `return` when the most significant digit overflows —
the counter silently wraps around to all zeros. -/
def incrWrapLE : List ℤ → List ℤ → List ℤ
  | s :: ss, d :: ds => if d + 1 < s then (d + 1) :: ds else 0 :: incrWrapLE ss ds
  | _, ds => ds

/-- Digit vector in range: `0 ≤ index[d] < shape[d]` in every dimension (and
equal lengths), least-significant-first lists. -/
def inRangeLE : List ℤ → List ℤ → Bool
  | [], [] => true
  | s :: ss, d :: ds => decide (0 ≤ d) && decide (d < s) && inRangeLE ss ds
  | _, _ => false

/-- Row-major rank of an index vector, in the order the C++ vectors use. -/
def valBE (shape index : List ℤ) : ℤ := valLE shape.reverse index.reverse

/-- Index vector in range for a shape, in the order the C++ vectors use. -/
def inRangeBE (shape index : List ℤ) : Bool := inRangeLE shape.reverse index.reverse

/-- One step of the `Compact`/`EwiseSetitem` counter on the C++-ordered
vectors: increment starting from the rightmost dimension; `none` when the
function returns. -/
def incrIndex (shape index : List ℤ) : Option (List ℤ) :=
  (incrLE shape.reverse index.reverse).map List.reverse

/-- One step of the `ScalarSetitem` counter on the C++-ordered vectors. -/
def incrWrap (shape index : List ℤ) : List ℤ :=
  (incrWrapLE shape.reverse index.reverse).reverse

/-- The all-zero index vector the three routines start from. -/
def zerosIdx (shape : List ℤ) : List ℤ := List.replicate shape.length 0

/-- All extents of a shape are positive. -/
def allPos (l : List ℤ) : Bool := l.all (fun s => decide (0 < s))

/-- The sequence of index vectors visited by the `Compact`/`EwiseSetitem`
loop, cut off after `fuel` visits.  The C++ loop has no fuel; a run that
returns is modelled exactly by any `fuel` at least the number of visits, and
a run that never returns keeps producing elements as `fuel` grows. -/
def indexSeq (shape : List ℤ) : ℕ → List ℤ → List (List ℤ)
  | 0, _ => []
  | fuel + 1, idx =>
      idx :: (match incrIndex shape idx with
              | none => []
              | some idx2 => indexSeq shape fuel idx2)

/-- The sequence of the first `count` index vectors visited by the
`ScalarSetitem` loop (which iterates exactly `size` times). -/
def wrapSeq (shape : List ℤ) : ℕ → List ℤ → List (List ℤ)
  | 0, _ => []
  | count + 1, idx => idx :: wrapSeq shape count (incrWrap shape idx)

/-- Linear position of an index vector: `offset + Σ index[i] * strides[i]`. -/
def posOf (strides : List ℤ) (offset : ℤ) (index : List ℤ) : ℤ :=
  offset + (List.zipWith (fun d s => d * s) index strides).sum

/-- Body of `Compact`: write `out->ptr[cnt] = a.ptr[pos]` for each visited
index vector in turn. -/
def CompactAux (a : Buf) (strides : List ℤ) (offset : ℤ) : Buf → ℤ → List (List ℤ) → Buf
  | out, _, [] => out
  | out, cnt, idx :: rest =>
      CompactAux a strides offset (store out cnt (a (posOf strides offset idx))) (cnt + 1) rest

/-- Embedding of `Compact`.  The fuel `(prodL shape).toNat` models the
terminating runs: by the termination theorem below, for a shape of positive
rank with positive extents this is exactly the number of visits the loop
makes before its `return`. -/
def Compact (a : Buf) (out : Buf) (shape strides : List ℤ) (offset : ℤ) : Buf :=
  CompactAux a strides offset out 0 (indexSeq shape (prodL shape).toNat (zerosIdx shape))

/-- Body of `EwiseSetitem`: write `out->ptr[pos] = a.ptr[cnt]` for each
visited index vector in turn. -/
def EwiseSetitemAux (a : Buf) (strides : List ℤ) (offset : ℤ) : Buf → ℤ → List (List ℤ) → Buf
  | out, _, [] => out
  | out, cnt, idx :: rest =>
      EwiseSetitemAux a strides offset (store out (posOf strides offset idx) (a cnt)) (cnt + 1) rest

/-- Embedding of `EwiseSetitem` (scatter from a compact source into a strided
destination); fuel as in `Compact`. -/
def EwiseSetitem (a : Buf) (out : Buf) (shape strides : List ℤ) (offset : ℤ) : Buf :=
  EwiseSetitemAux a strides offset out 0 (indexSeq shape (prodL shape).toNat (zerosIdx shape))

/-- Body of `ScalarSetitem`: write `val` at the position of each visited
index vector, advancing the wrapping counter. -/
def ScalarSetitemAux (val : ℚ) (shape strides : List ℤ) (offset : ℤ) : Buf → List ℤ → ℕ → Buf
  | out, _, 0 => out
  | out, idx, k + 1 =>
      ScalarSetitemAux val shape strides offset
        (store out (posOf strides offset idx) val) (incrWrap shape idx) k

/-- Embedding of `ScalarSetitem`: exactly `size` iterations of the counted
loop `for (cnt = 0; cnt < size; ++cnt)`. -/
def ScalarSetitem (size : ℕ) (val : ℚ) (out : Buf) (shape strides : List ℤ) (offset : ℤ) : Buf :=
  ScalarSetitemAux val shape strides offset out (zerosIdx shape) size

/-! ### Elementwise / scalar operator family -/

/-- Embedding of `EwiseAdd`: `out[i] = a[i] + b[i]` for `i < a.size`
(`asize` stands for the field `a.size`). -/
def EwiseAdd (a b : Buf) (asize : ℕ) (out : Buf) : Buf :=
  (List.range asize).foldl (fun o i => store o (i : ℕ) (a i + b i)) out

/-- Embedding of `ScalarAdd`: `out[i] = a[i] + val` for `i < a.size`. -/
def ScalarAdd (a : Buf) (asize : ℕ) (val : ℚ) (out : Buf) : Buf :=
  (List.range asize).foldl (fun o i => store o (i : ℕ) (a i + val)) out

/-- Embedding of the macro `DEFINE_EWISE_FUNC(func, opr)`:
`out[i] = opr(a[i], b[i])` for `i < a.size`. -/
def DEFINE_EWISE_FUNC (opr : ℚ → ℚ → ℚ) (a b : Buf) (asize : ℕ) (out : Buf) : Buf :=
  (List.range asize).foldl (fun o i => store o (i : ℕ) (opr (a i) (b i))) out

/-- Embedding of the macro `DEFINE_SCALAR_FUNC(func, opr)`:
`out[i] = opr(a[i], val)` for `i < a.size`. -/
def DEFINE_SCALAR_FUNC (opr : ℚ → ℚ → ℚ) (a : Buf) (asize : ℕ) (val : ℚ) (out : Buf) : Buf :=
  (List.range asize).foldl (fun o i => store o (i : ℕ) (opr (a i) val)) out

/-- Embedding of the macro `DEFINE_UNARY_FUNC(func, opr)`:
`out[i] = opr(a[i])` for `i < a.size`. -/
def DEFINE_UNARY_FUNC (opr : ℚ → ℚ) (a : Buf) (asize : ℕ) (out : Buf) : Buf :=
  (List.range asize).foldl (fun o i => store o (i : ℕ) (opr (a i))) out

/-- `EwiseMul` from `DEFINE_EWISE_FUNC(EwiseMul, std::multiplies)`. -/
def EwiseMul : Buf → Buf → ℕ → Buf → Buf := DEFINE_EWISE_FUNC (fun x y => x * y)

/-- `ScalarMul` from `DEFINE_SCALAR_FUNC(ScalarMul, std::multiplies)`. -/
def ScalarMul : Buf → ℕ → ℚ → Buf → Buf := DEFINE_SCALAR_FUNC (fun x y => x * y)

/-- `EwiseDiv` from `DEFINE_EWISE_FUNC(EwiseDiv, std::divides)`. -/
def EwiseDiv : Buf → Buf → ℕ → Buf → Buf := DEFINE_EWISE_FUNC (fun x y => x / y)

/-- `ScalarDiv` from `DEFINE_SCALAR_FUNC(ScalarDiv, std::divides)`. -/
def ScalarDiv : Buf → ℕ → ℚ → Buf → Buf := DEFINE_SCALAR_FUNC (fun x y => x / y)

/-- `ScalarPower` from `DEFINE_SCALAR_FUNC(ScalarPower, std::pow)`; the
float power function is the parameter `powf`. -/
def ScalarPower (powf : ℚ → ℚ → ℚ) : Buf → ℕ → ℚ → Buf → Buf := DEFINE_SCALAR_FUNC powf

/-- `EwiseMaximum` from `DEFINE_EWISE_FUNC(EwiseMaximum, std::max)`. -/
def EwiseMaximum : Buf → Buf → ℕ → Buf → Buf := DEFINE_EWISE_FUNC max

/-- `ScalarMaximum` from `DEFINE_SCALAR_FUNC(ScalarMaximum, std::max)`. -/
def ScalarMaximum : Buf → ℕ → ℚ → Buf → Buf := DEFINE_SCALAR_FUNC max

/-- `EwiseEq` from `DEFINE_EWISE_FUNC(EwiseEq, std::equal_to)`: 1.0/0.0
encoded in the scalar type. -/
def EwiseEq : Buf → Buf → ℕ → Buf → Buf :=
  DEFINE_EWISE_FUNC (fun x y => if x = y then 1 else 0)

/-- `ScalarEq` from `DEFINE_SCALAR_FUNC(ScalarEq, std::equal_to)`. -/
def ScalarEq : Buf → ℕ → ℚ → Buf → Buf :=
  DEFINE_SCALAR_FUNC (fun x y => if x = y then 1 else 0)

/-- `EwiseGe` from `DEFINE_EWISE_FUNC(EwiseGe, std::greater_equal)`. -/
def EwiseGe : Buf → Buf → ℕ → Buf → Buf :=
  DEFINE_EWISE_FUNC (fun x y => if y ≤ x then 1 else 0)

/-- `ScalarGe` from `DEFINE_SCALAR_FUNC(ScalarGe, std::greater_equal)`. -/
def ScalarGe : Buf → ℕ → ℚ → Buf → Buf :=
  DEFINE_SCALAR_FUNC (fun x y => if y ≤ x then 1 else 0)

/-- `EwiseLog` from `DEFINE_UNARY_FUNC(EwiseLog, std::log)`; the float log
is the parameter `logf`. -/
def EwiseLog (logf : ℚ → ℚ) : Buf → ℕ → Buf → Buf := DEFINE_UNARY_FUNC logf

/-- `EwiseExp` from `DEFINE_UNARY_FUNC(EwiseExp, std::exp)`. -/
def EwiseExp (expf : ℚ → ℚ) : Buf → ℕ → Buf → Buf := DEFINE_UNARY_FUNC expf

/-- `EwiseTanh` from `DEFINE_UNARY_FUNC(EwiseTanh, std::tanh)`. -/
def EwiseTanh (tanhf : ℚ → ℚ) : Buf → ℕ → Buf → Buf := DEFINE_UNARY_FUNC tanhf

/-! ### Matrix multiplication -/

/-- Embedding of the naive `Matmul`: for each `i < m`, `j < p`, zero the
output cell, then accumulate `a[i*n+k] * b[k*p+j]` over `k < n`. -/
def Matmul (a b : Buf) (out : Buf) (m n p : ℕ) : Buf :=
  (List.range m).foldl
    (fun o1 i =>
      (List.range p).foldl
        (fun o2 j =>
          (List.range n).foldl
            (fun o3 k =>
              store o3 ((i * p + j : ℕ) : ℤ)
                (o3 ((i * p + j : ℕ) : ℤ) + a ((i * n + k : ℕ) : ℤ) * b ((k * p + j : ℕ) : ℤ)))
            (store o2 ((i * p + j : ℕ) : ℤ) 0))
        o1)
    out

/-- Embedding of `AlignedDot`: multiply the TILE×TILE (= 8×8) blocks of `a`
at base `ao` and of `b` at base `bo` and accumulate into the block of `out`
at base `oo` (no zeroing). -/
def AlignedDot (a : Buf) (ao : ℤ) (b : Buf) (bo : ℤ) (out : Buf) (oo : ℤ) : Buf :=
  (List.range 8).foldl
    (fun o1 i =>
      (List.range 8).foldl
        (fun o2 j =>
          (List.range 8).foldl
            (fun o3 k =>
              store o3 (oo + ((i * 8 + j : ℕ) : ℤ))
                (o3 (oo + ((i * 8 + j : ℕ) : ℤ))
                  + a (ao + ((i * 8 + k : ℕ) : ℤ)) * b (bo + ((k * 8 + j : ℕ) : ℤ))))
            o2)
        o1)
    out

/-- Embedding of `MatmulTiled`: `Fill(out, 0)` over the `m*p` output cells,
then the loops `for i += TILE`, `for j += TILE`, `for k += TILE` (each loop
runs `⌈dim/8⌉` times, the iteration counter here being `i / TILE` etc.),
calling `AlignedDot` at the block base offsets `i*n + k*TILE`,
`k*p + j*TILE` and `i*p + j*TILE` of the code. -/
def MatmulTiled (a b : Buf) (out : Buf) (m n p : ℕ) : Buf :=
  (List.range ((m + 7) / 8)).foldl
    (fun o1 i2 =>
      (List.range ((p + 7) / 8)).foldl
        (fun o2 j2 =>
          (List.range ((n + 7) / 8)).foldl
            (fun o3 k2 =>
              AlignedDot a ((8 * i2 * n + 8 * k2 * 8 : ℕ) : ℤ)
                b ((8 * k2 * p + 8 * j2 * 8 : ℕ) : ℤ)
                o3 ((8 * i2 * p + 8 * j2 * 8 : ℕ) : ℤ))
            o2)
        o1)
    (Fill out (m * p) 0)

/-- Position of the logical matrix entry `(i, k)` of a matrix with `cols`
columns in the 4D block-major tiled layout
`[rows/TILE][cols/TILE][TILE][TILE]` described by the spec (TILE = 8). -/
def tIdx (cols i k : ℕ) : ℤ :=
  ((((i / 8) * (cols / 8) + k / 8) * 64 + (i % 8) * 8 + k % 8 : ℕ) : ℤ)

/-! ### Reductions -/

/-- Embedding of `ReduceMax`: `out[i]` is the running maximum of the block
`a[i*reduce_size .. i*reduce_size + reduce_size - 1]`, seeded with the first
element and folding `std::max` over `j = 1 .. reduce_size - 1`. -/
def ReduceMax (a : Buf) (out : Buf) (osize reduce_size : ℕ) : Buf :=
  (List.range osize).foldl
    (fun o i =>
      store o (i : ℕ)
        ((List.range (reduce_size - 1)).foldl
          (fun mv j => max mv (a ((i * reduce_size + (j + 1) : ℕ) : ℤ)))
          (a ((i * reduce_size : ℕ) : ℤ))))
    out

/-- Embedding of `ReduceSum`: `out[i]` is the left-to-right sum, seeded with
0, of the block `a[i*reduce_size .. i*reduce_size + reduce_size - 1]`. -/
def ReduceSum (a : Buf) (out : Buf) (osize reduce_size : ℕ) : Buf :=
  (List.range osize).foldl
    (fun o i =>
      store o (i : ℕ)
        ((List.range reduce_size).foldl
          (fun sv j => sv + a ((i * reduce_size + j : ℕ) : ℤ)) 0))
    out

/-! ### Grid sampling -/

/-- Truncation toward zero, the semantics of the C cast
`static_cast<int32_t>` applied to a float value. -/
def trunc (q : ℚ) : ℤ := if 0 ≤ q then ⌊q⌋ else -⌊-q⌋

/-- The grid cell linear index of output element `i`:
`((i / chw) * hw + i % hw) << 1` in the code. -/
def gridPtr (C H W : ℕ) (i : ℕ) : ℕ :=
  ((i / (C * H * W)) * (H * W) + i % (H * W)) * 2

/-- The mapped x-coordinate `x * w / 2.0 + (w + 1) / 2.0` of the code. -/
def xTrans (grid : Buf) (C H W : ℕ) (i : ℕ) : ℚ :=
  grid (gridPtr C H W i : ℕ) * (W : ℚ) / 2 + ((W : ℚ) + 1) / 2

/-- The mapped y-coordinate `y * h / 2.0 + (h + 1) / 2.0` of the code. -/
def yTrans (grid : Buf) (C H W : ℕ) (i : ℕ) : ℚ :=
  grid ((gridPtr C H W i + 1 : ℕ) : ℤ) * (H : ℚ) / 2 + ((H : ℚ) + 1) / 2

/-- The integer part `x_ind = static_cast<int32_t>(x_trans)`. -/
def xInd (grid : Buf) (C H W : ℕ) (i : ℕ) : ℤ := trunc (xTrans grid C H W i)

/-- The integer part `y_ind = static_cast<int32_t>(y_trans)`. -/
def yInd (grid : Buf) (C H W : ℕ) (i : ℕ) : ℤ := trunc (yTrans grid C H W i)

/-- The fractional part `dx = x_trans - x_ind`. -/
def dxQ (grid : Buf) (C H W : ℕ) (i : ℕ) : ℚ :=
  xTrans grid C H W i - ((xInd grid C H W i : ℤ) : ℚ)

/-- The fractional part `dy = y_trans - y_ind`. -/
def dyQ (grid : Buf) (C H W : ℕ) (i : ℕ) : ℚ :=
  yTrans grid C H W i - ((yInd grid C H W i : ℤ) : ℚ)

/-- The neighbor x-offset table `xx[4] = {0, 1, 0, 1}`. -/
def xxG (k : ℕ) : ℤ := if k = 1 ∨ k = 3 then 1 else 0

/-- The neighbor y-offset table `yy[4] = {0, 0, 1, 1}`. -/
def yyG (k : ℕ) : ℤ := if k = 2 ∨ k = 3 then 1 else 0

/-- The interpolation weight factor `d * ((t << 1) - 1) + 1 - t` of the
code, i.e. `1 - d` for `t = 0` and `d` for `t = 1`. -/
def wG (d : ℚ) (t : ℤ) : ℚ := d * ((2 * t - 1 : ℤ) : ℚ) + 1 - (t : ℚ)

/-- The padded-source position
`(i / hw) * h2w2 + (y_ind + yy[k]) * (w + 2) + (x_ind + xx[k])`. -/
def aPtrG (grid : Buf) (C H W : ℕ) (i k : ℕ) : ℤ :=
  ((i / (H * W) : ℕ) : ℤ) * (((H : ℤ) + 2) * ((W : ℤ) + 2))
    + (yInd grid C H W i + yyG k) * ((W : ℤ) + 2)
    + (xInd grid C H W i + xxG k)

/-- Embedding of `GridSample`: for each flattened output index
`i < B*C*H*W`, accumulate the four weighted padded-source neighbors into
`out->ptr[i]` (the destination is never zeroed by this routine). -/
def GridSample (a grid : Buf) (out : Buf) (B C H W : ℕ) : Buf :=
  (List.range (B * C * H * W)).foldl
    (fun o i =>
      (List.range 4).foldl
        (fun o2 k =>
          store o2 (i : ℕ)
            (o2 (i : ℕ)
              + a (aPtrG grid C H W i k)
                * wG (dxQ grid C H W i) (xxG k)
                * wG (dyQ grid C H W i) (yyG k)))
        o)
    out

/-- A buffer holding the given list at cells `0, 1, 2, …` and zero
elsewhere; used for the concrete examples of the spec. -/
def listBuf (l : List ℚ) : Buf := fun q => if 0 ≤ q then l.getD q.toNat 0 else 0

/-- The buffer `[1, 2, 3, 4, 5, 6]` of the spec's reduction example. -/
def sixBuf : Buf := fun q =>
  if q = 0 then 1 else if q = 1 then 2 else if q = 2 then 3 else
  if q = 3 then 4 else if q = 4 then 5 else if q = 5 then 6 else 0

/-- A 3×3 padded source image (`B = C = H = W = 1`) holding
`[10 … 18]` at cells `0 … 8`, for the grid-sampling examples. -/
def nineBuf : Buf := fun q =>
  if q = 0 then 10 else if q = 1 then 11 else if q = 2 then 12 else
  if q = 3 then 13 else if q = 4 then 14 else if q = 5 then 15 else
  if q = 6 then 16 else if q = 7 then 17 else if q = 8 then 18 else 0

/-! ### Generic lemmas about single-cell stores and loops of stores -/

lemma store_same (o : Buf) (c : ℤ) (v : ℚ) : store o c v c = v := if_pos rfl

lemma store_other (o : Buf) (c : ℤ) (v : ℚ) {q : ℤ} (h : q ≠ c) : store o c v q = o q := if_neg h

/-- A loop none of whose iterations writes cell `c` leaves cell `c` alone. -/
lemma foldl_frame {α : Type} {body : Buf → α → Buf} {c : ℤ} :
    ∀ (l : List α), (∀ o k, k ∈ l → body o k c = o c) → ∀ o : Buf, (l.foldl body o) c = o c := by
  intro l
  induction l with
  | nil => intro _ o; rfl
  | cons x xs ih =>
      intro h o
      rw [List.foldl_cons, ih (fun o2 k hk => h o2 k (List.mem_cons_of_mem x hk)) (body o x),
        h o x (List.mem_cons_self x xs)]

/-- A loop each of whose iterations adds `f k` to cell `c` accumulates the
sum of the `f k` into cell `c`. -/
lemma foldl_acc (f : ℕ → ℚ) {body : Buf → ℕ → Buf} {c : ℤ} :
    ∀ (K : ℕ), (∀ o k, k < K → body o k c = o c + f k) →
      ∀ o : Buf, ((List.range K).foldl body o) c = o c + ∑ k ∈ Finset.range K, f k := by
  intro K
  induction K with
  | zero => intro _ o; simp
  | succ K ih =>
      intro h o
      rw [List.range_succ, List.foldl_append, List.foldl_cons, List.foldl_nil,
        h _ K (Nat.lt_succ_self K), ih (fun o2 k hk => h o2 k (Nat.lt_succ_of_lt hk)) o,
        Finset.sum_range_succ]
      ring

/-- A loop in which exactly the iteration `k0` touches cell `c`, mapping its
current value through `G`, leaves `G` of the initial value in cell `c`. -/
lemma foldl_single (G : ℚ → ℚ) {body : Buf → ℕ → Buf} {c : ℤ} :
    ∀ (K k0 : ℕ), k0 < K →
      (∀ o k, k < K → k ≠ k0 → body o k c = o c) →
      (∀ o : Buf, body o k0 c = G (o c)) →
      ∀ o : Buf, ((List.range K).foldl body o) c = G (o c) := by
  intro K
  induction K with
  | zero => intro k0 h _ _ o; exact absurd h (Nat.not_lt_zero k0)
  | succ K ih =>
      intro k0 hk0 hframe hval o
      rw [List.range_succ, List.foldl_append, List.foldl_cons, List.foldl_nil]
      by_cases hK : k0 = K
      · subst hK
        rw [hval, foldl_frame (List.range k0)
          (fun o2 k hk => hframe o2 k (Nat.lt_succ_of_lt (List.mem_range.mp hk))
            (Nat.ne_of_lt (List.mem_range.mp hk))) o]
      · have hk0' : k0 < K := by omega
        rw [hframe _ K (Nat.lt_succ_self K) (fun he => hK he.symm),
          ih k0 hk0' (fun o2 k hk hne => hframe o2 k (Nat.lt_succ_of_lt hk) hne) hval o]

/-- A left fold of additions is the big-operator sum. -/
lemma foldl_add_eq_sum (f : ℕ → ℚ) :
    ∀ (K : ℕ) (c : ℚ),
      (List.range K).foldl (fun s j => s + f j) c = c + ∑ j ∈ Finset.range K, f j := by
  intro K
  induction K with
  | zero => intro c; simp
  | succ K ih =>
      intro c
      rw [List.range_succ, List.foldl_append, List.foldl_cons, List.foldl_nil, ih c,
        Finset.sum_range_succ]
      ring

/-- The seed of a running maximum bounds the result from below. -/
lemma foldl_max_le_self (f : ℕ → ℚ) :
    ∀ (K : ℕ) (c : ℚ), c ≤ (List.range K).foldl (fun s j => max s (f j)) c := by
  intro K
  induction K with
  | zero => intro c; exact le_refl c
  | succ K ih =>
      intro c
      rw [List.range_succ, List.foldl_append, List.foldl_cons, List.foldl_nil]
      exact le_trans (ih c) (le_max_left _ _)

/-- Every element folded into a running maximum bounds the result from
below. -/
lemma foldl_max_le (f : ℕ → ℚ) :
    ∀ (K : ℕ) (c : ℚ) (j : ℕ), j < K →
      f j ≤ (List.range K).foldl (fun s j => max s (f j)) c := by
  intro K
  induction K with
  | zero => intro c j h; omega
  | succ K ih =>
      intro c j h
      rw [List.range_succ, List.foldl_append, List.foldl_cons, List.foldl_nil]
      by_cases hj : j = K
      · subst hj; exact le_max_right _ _
      · exact le_trans (ih c j (by omega)) (le_max_left _ _)

/-- A running maximum is the seed or one of the folded elements. -/
lemma foldl_max_cases (f : ℕ → ℚ) :
    ∀ (K : ℕ) (c : ℚ),
      (List.range K).foldl (fun s j => max s (f j)) c = c
      ∨ ∃ j, j < K ∧ (List.range K).foldl (fun s j => max s (f j)) c = f j := by
  intro K
  induction K with
  | zero => intro c; exact Or.inl rfl
  | succ K ih =>
      intro c
      rw [List.range_succ, List.foldl_append, List.foldl_cons, List.foldl_nil]
      rcases max_cases ((List.range K).foldl (fun s j => max s (f j)) c) (f K) with h | h
      · rcases ih c with h2 | ⟨j, hj, h2⟩
        · exact Or.inl (h.1.trans h2)
        · exact Or.inr ⟨j, Nat.lt_succ_of_lt hj, h.1.trans h2⟩
      · exact Or.inr ⟨K, Nat.lt_succ_self K, h.1⟩

/-- Row-major linear indices determine the coordinate pair. -/
lemma rowMajorInj {p i j i2 j2 : ℕ} (hj : j < p) (hj2 : j2 < p)
    (h : i * p + j = i2 * p + j2) : i = i2 ∧ j = j2 := by
  have hp : 0 < p := lt_of_le_of_lt (Nat.zero_le j) hj
  have e1 : (i * p + j) / p = i := by
    rw [Nat.mul_comm i p, Nat.mul_add_div hp, Nat.div_eq_of_lt hj, Nat.add_zero]
  have e2 : (i2 * p + j2) / p = i2 := by
    rw [Nat.mul_comm i2 p, Nat.mul_add_div hp, Nat.div_eq_of_lt hj2, Nat.add_zero]
  have hi : i = i2 := by rw [← e1, h, e2]
  subst hi
  exact ⟨rfl, by omega⟩

/-- C10: every elementwise, array-scalar and unary operator writes exactly
the first `a.size` cells of the output: any cell at index at least `a.size`
keeps its previous value (stated for the two hand-written operators, the
three loop skeletons every macro-generated operator instantiates, and each
named operator), and cell `i < a.size` receives the operator value. -/
theorem ewise_ops_frame (opr2 : ℚ → ℚ → ℚ) (opr1 : ℚ → ℚ) (a b out : Buf) (asize : ℕ)
    (val : ℚ) (q : ℤ) (hq : (asize : ℤ) ≤ q) :
    DEFINE_EWISE_FUNC opr2 a b asize out q = out q ∧
    DEFINE_SCALAR_FUNC opr2 a asize val out q = out q ∧
    DEFINE_UNARY_FUNC opr1 a asize out q = out q ∧
    EwiseAdd a b asize out q = out q ∧
    ScalarAdd a asize val out q = out q ∧
    EwiseMul a b asize out q = out q ∧
    ScalarMul a asize val out q = out q ∧
    EwiseDiv a b asize out q = out q ∧
    ScalarDiv a asize val out q = out q ∧
    ScalarPower opr2 a asize val out q = out q ∧
    EwiseMaximum a b asize out q = out q ∧
    ScalarMaximum a asize val out q = out q ∧
    EwiseEq a b asize out q = out q ∧
    ScalarEq a asize val out q = out q ∧
    EwiseGe a b asize out q = out q ∧
    ScalarGe a asize val out q = out q ∧
    EwiseLog opr1 a asize out q = out q ∧
    EwiseExp opr1 a asize out q = out q ∧
    EwiseTanh opr1 a asize out q = out q ∧
    (∀ i, i < asize → DEFINE_EWISE_FUNC opr2 a b asize out ((i : ℕ) : ℤ) = opr2 (a i) (b i)) ∧
    (∀ i, i < asize → DEFINE_SCALAR_FUNC opr2 a asize val out ((i : ℕ) : ℤ) = opr2 (a i) val) ∧
    (∀ i, i < asize → DEFINE_UNARY_FUNC opr1 a asize out ((i : ℕ) : ℤ) = opr1 (a i)) := by
  have hframe : ∀ (f : ℕ → ℚ),
      (List.range asize).foldl (fun o i => store o (i : ℕ) (f i)) out q = out q := by
    intro f
    refine foldl_frame (List.range asize) ?_ out
    intro o k hk
    refine store_other _ _ _ ?_
    have hk2 : k < asize := List.mem_range.mp hk
    omega
  have hval : ∀ (f : ℕ → ℚ) (i : ℕ), i < asize →
      (List.range asize).foldl (fun o j => store o (j : ℕ) (f j)) out ((i : ℕ) : ℤ) = f i := by
    intro f i hi
    refine foldl_single (fun _ => f i) asize i hi ?_ ?_ out
    · intro o k hk hne
      refine store_other _ _ _ ?_
      intro he
      exact hne (by exact_mod_cast he.symm)
    · intro o; exact store_same o _ _
  exact ⟨hframe _, hframe _, hframe _, hframe _, hframe _, hframe _, hframe _, hframe _,
    hframe _, hframe _, hframe _, hframe _, hframe _, hframe _, hframe _, hframe _,
    hframe _, hframe _, hframe _,
    fun i hi => hval _ i hi, fun i hi => hval _ i hi, fun i hi => hval _ i hi⟩

/-- Witness for `ewise_ops_frame` at a concrete input: with `a.size = 2`,
cell 5 of the destination keeps its previous value. -/
theorem ewise_ops_frame_witness :
    (2 : ℤ) ≤ 5 ∧
    DEFINE_EWISE_FUNC (fun x y => x * y) (listBuf [1, 2]) (listBuf [3, 4]) 2 (listBuf [7]) 5
      = listBuf [7] 5 ∧
    EwiseAdd (listBuf [1, 2]) (listBuf [3, 4]) 2 (listBuf [7]) 5 = listBuf [7] 5 := by
  have h := ewise_ops_frame (fun x y => x * y) (fun x => x) (listBuf [1, 2]) (listBuf [3, 4])
    (listBuf [7]) 2 0 5 (by norm_num)
  exact ⟨by norm_num, h.1, h.2.2.2.1⟩

/-- Value of one naive `Matmul` output cell (shared helper). -/
lemma matmul_cell (a b out : Buf) (m n p : ℕ) (i j : ℕ) (hi : i < m) (hj : j < p) :
    Matmul a b out m n p ((i * p + j : ℕ) : ℤ)
      = ∑ k ∈ Finset.range n, a ((i * n + k : ℕ) : ℤ) * b ((k * p + j : ℕ) : ℤ) := by
  have hinner : ∀ (i2 j2 : ℕ) (o : Buf),
      ((List.range n).foldl
        (fun o3 k =>
          store o3 ((i2 * p + j2 : ℕ) : ℤ)
            (o3 ((i2 * p + j2 : ℕ) : ℤ) + a ((i2 * n + k : ℕ) : ℤ) * b ((k * p + j2 : ℕ) : ℤ)))
        (store o ((i2 * p + j2 : ℕ) : ℤ) 0)) ((i2 * p + j2 : ℕ) : ℤ)
      = ∑ k ∈ Finset.range n, a ((i2 * n + k : ℕ) : ℤ) * b ((k * p + j2 : ℕ) : ℤ) := by
    intro i2 j2 o
    rw [foldl_acc (fun k => a ((i2 * n + k : ℕ) : ℤ) * b ((k * p + j2 : ℕ) : ℤ)) n
      (fun o2 k _ => store_same o2 _ _) (store o ((i2 * p + j2 : ℕ) : ℤ) 0),
      store_same]
    ring
  have hinnerf : ∀ (i2 j2 : ℕ) (o : Buf) (q : ℤ), q ≠ ((i2 * p + j2 : ℕ) : ℤ) →
      ((List.range n).foldl
        (fun o3 k =>
          store o3 ((i2 * p + j2 : ℕ) : ℤ)
            (o3 ((i2 * p + j2 : ℕ) : ℤ) + a ((i2 * n + k : ℕ) : ℤ) * b ((k * p + j2 : ℕ) : ℤ)))
        (store o ((i2 * p + j2 : ℕ) : ℤ) 0)) q = o q := by
    intro i2 j2 o q hne
    rw [foldl_frame (List.range n) (fun o3 k _ => store_other o3 _ _ hne) _,
      store_other o _ _ hne]
  refine foldl_single
    (fun _ => ∑ k ∈ Finset.range n, a ((i * n + k : ℕ) : ℤ) * b ((k * p + j : ℕ) : ℤ))
    m i hi ?_ ?_ out
  · intro o1 i2 hi2 hne
    refine foldl_frame (List.range p) ?_ o1
    intro o2 j2 hj2
    refine hinnerf i2 j2 o2 _ ?_
    intro he
    have he2 : i * p + j = i2 * p + j2 := by exact_mod_cast he
    exact hne (rowMajorInj hj (List.mem_range.mp hj2) he2).1.symm
  · intro o1
    refine foldl_single
      (fun _ => ∑ k ∈ Finset.range n, a ((i * n + k : ℕ) : ℤ) * b ((k * p + j : ℕ) : ℤ))
      p j hj ?_ ?_ o1
    · intro o2 j2 hj2 hne
      refine hinnerf i j2 o2 _ ?_
      intro he
      have he2 : i * p + j = i * p + j2 := by exact_mod_cast he
      exact hne (by omega)
    · intro o2
      exact hinner i j o2

/-- C4: the naive `Matmul` sets `out[i,j]` to the dot product
`Σ_{k<n} a[i,k]·b[k,j]` for every `i < m`, `j < p`, zero-initializing the
cell before accumulating; the right-hand side does not mention the
destination, so the result is independent of the destination's prior
contents. -/
theorem matmul_naive_entry (a b out : Buf) (m n p : ℕ) (i j : ℕ) (hi : i < m) (hj : j < p) :
    Matmul a b out m n p ((i * p + j : ℕ) : ℤ)
      = ∑ k ∈ Finset.range n, a ((i * n + k : ℕ) : ℤ) * b ((k * p + j : ℕ) : ℤ) :=
  matmul_cell a b out m n p i j hi hj

/-- Witness for `matmul_naive_entry`: the 2×2 product of `[[1,2],[3,4]]`
and `[[5,6],[7,8]]` has top-left entry 19. -/
theorem matmul_naive_entry_witness :
    Matmul (fun q => if q = 0 then 1 else if q = 1 then 2 else if q = 2 then 3 else
        if q = 3 then 4 else 0)
      (fun q => if q = 0 then 5 else if q = 1 then 6 else if q = 2 then 7 else
        if q = 3 then 8 else 0)
      (fun _ => 9) 2 2 2 ((0 * 2 + 0 : ℕ) : ℤ) = 19 := by
  have h := matmul_naive_entry
    (fun q => if q = 0 then 1 else if q = 1 then 2 else if q = 2 then 3 else
      if q = 3 then 4 else 0)
    (fun q => if q = 0 then 5 else if q = 1 then 6 else if q = 2 then 7 else
      if q = 3 then 8 else 0)
    (fun _ => 9) 2 2 2 0 0 (by norm_num) (by norm_num)
  rw [h, Finset.sum_range_succ, Finset.sum_range_succ, Finset.sum_range_zero]
  norm_num

/-- C5: `ReduceSum` writes into `out[i]` the sum of the contiguous block
`a[i·reduce_size .. i·reduce_size + reduce_size - 1]` and `ReduceMax` writes
the maximum of the same block (characterised as an upper bound attained by a
block element), for every `i < out.size` and `reduce_size ≥ 1`. -/
theorem reduce_blocks (a out : Buf) (osize rsize : ℕ) (hr : 1 ≤ rsize) (i : ℕ)
    (hi : i < osize) :
    ReduceSum a out osize rsize ((i : ℕ) : ℤ)
      = ∑ j ∈ Finset.range rsize, a ((i * rsize + j : ℕ) : ℤ)
    ∧ (∀ j, j < rsize →
        a ((i * rsize + j : ℕ) : ℤ) ≤ ReduceMax a out osize rsize ((i : ℕ) : ℤ))
    ∧ ∃ j, j < rsize ∧
        ReduceMax a out osize rsize ((i : ℕ) : ℤ) = a ((i * rsize + j : ℕ) : ℤ) := by
  have hsum : ReduceSum a out osize rsize ((i : ℕ) : ℤ)
      = ∑ j ∈ Finset.range rsize, a ((i * rsize + j : ℕ) : ℤ) := by
    refine foldl_single (fun _ => ∑ j ∈ Finset.range rsize, a ((i * rsize + j : ℕ) : ℤ))
      osize i hi ?_ ?_ out
    · intro o k hk hne
      exact store_other o _ _ (fun he => hne (Eq.symm (by exact_mod_cast he)))
    · intro o
      rw [store_same, foldl_add_eq_sum (fun j => a ((i * rsize + j : ℕ) : ℤ)) rsize 0,
        zero_add]
  have hmaxval : ReduceMax a out osize rsize ((i : ℕ) : ℤ)
      = (List.range (rsize - 1)).foldl
          (fun mv j => max mv (a ((i * rsize + (j + 1) : ℕ) : ℤ)))
          (a ((i * rsize : ℕ) : ℤ)) := by
    refine foldl_single
      (fun _ => (List.range (rsize - 1)).foldl
        (fun mv j => max mv (a ((i * rsize + (j + 1) : ℕ) : ℤ)))
        (a ((i * rsize : ℕ) : ℤ)))
      osize i hi ?_ ?_ out
    · intro o k hk hne
      exact store_other o _ _ (fun he => hne (Eq.symm (by exact_mod_cast he)))
    · intro o
      exact store_same o _ _
  refine ⟨hsum, ?_, ?_⟩
  · intro j hj
    rw [hmaxval]
    rcases Nat.eq_zero_or_pos j with hj0 | hj0
    · subst hj0
      have := foldl_max_le_self (fun j => a ((i * rsize + (j + 1) : ℕ) : ℤ)) (rsize - 1)
        (a ((i * rsize : ℕ) : ℤ))
      simpa using this
    · obtain ⟨j2, rfl⟩ : ∃ j2, j = j2 + 1 := ⟨j - 1, by omega⟩
      exact foldl_max_le (fun j => a ((i * rsize + (j + 1) : ℕ) : ℤ)) (rsize - 1)
        (a ((i * rsize : ℕ) : ℤ)) j2 (by omega)
  · rw [hmaxval]
    rcases foldl_max_cases (fun j => a ((i * rsize + (j + 1) : ℕ) : ℤ)) (rsize - 1)
      (a ((i * rsize : ℕ) : ℤ)) with h | ⟨j, hj, h⟩
    · exact ⟨0, by omega, by simpa using h⟩
    · exact ⟨j + 1, by omega, h⟩

/-! ### Mixed-radix counter lemmas -/

lemma prodL_append : ∀ (l1 l2 : List ℤ), prodL (l1 ++ l2) = prodL l1 * prodL l2 := by
  intro l1
  induction l1 with
  | nil => intro l2; simp [prodL]
  | cons s ss ih => intro l2; simp [prodL, ih, mul_assoc]

lemma prodL_reverse : ∀ (l : List ℤ), prodL l.reverse = prodL l := by
  intro l
  induction l with
  | nil => rfl
  | cons s ss ih =>
      rw [List.reverse_cons, prodL_append, ih]
      simp [prodL, mul_comm]

/-- An in-range digit vector has length equal to its radix vector. -/
lemma inRangeLE_length : ∀ (ss ds : List ℤ), inRangeLE ss ds = true → ds.length = ss.length := by
  intro ss
  induction ss with
  | nil => intro ds h; cases ds with
      | nil => rfl
      | cons d ds2 => simp [inRangeLE] at h
  | cons s ss2 ih =>
      intro ds h
      cases ds with
      | nil => simp [inRangeLE] at h
      | cons d ds2 =>
          simp only [inRangeLE, Bool.and_eq_true] at h
          simp [ih ds2 h.2]

/-- The value of an in-range digit vector lies in `[0, prodL)`. -/
lemma valLE_bounds : ∀ (ss ds : List ℤ), inRangeLE ss ds = true →
    0 ≤ valLE ss ds ∧ valLE ss ds < prodL ss := by
  intro ss
  induction ss with
  | nil =>
      intro ds h
      cases ds with
      | nil => simp [valLE, prodL]
      | cons d ds2 => simp [inRangeLE] at h
  | cons s ss2 ih =>
      intro ds h
      cases ds with
      | nil => simp [inRangeLE] at h
      | cons d ds2 =>
          simp only [inRangeLE, Bool.and_eq_true, decide_eq_true_eq] at h
          obtain ⟨⟨h0, h1⟩, h2⟩ := h
          obtain ⟨hV0, hVP⟩ := ih ds2 h2
          have hs : 0 < s := by omega
          constructor
          · show 0 ≤ d + s * valLE ss2 ds2
            have := mul_nonneg (le_of_lt hs) hV0
            omega
          · show d + s * valLE ss2 ds2 < s * prodL ss2
            calc d + s * valLE ss2 ds2 < s + s * valLE ss2 ds2 := by omega
              _ = s * (valLE ss2 ds2 + 1) := by ring
              _ ≤ s * prodL ss2 := mul_le_mul_of_nonneg_left (by omega) (le_of_lt hs)

/-- An in-range digit vector is determined by its value. -/
lemma valLE_inj : ∀ (ss ds es : List ℤ), inRangeLE ss ds = true → inRangeLE ss es = true →
    valLE ss ds = valLE ss es → ds = es := by
  intro ss
  induction ss with
  | nil =>
      intro ds es h1 h2 _
      cases ds with
      | nil =>
          cases es with
          | nil => rfl
          | cons e es2 => simp [inRangeLE] at h2
      | cons d ds2 => simp [inRangeLE] at h1
  | cons s ss2 ih =>
      intro ds es h1 h2 hv
      cases ds with
      | nil => simp [inRangeLE] at h1
      | cons d ds2 =>
          cases es with
          | nil => simp [inRangeLE] at h2
          | cons e es2 =>
              simp only [inRangeLE, Bool.and_eq_true, decide_eq_true_eq] at h1 h2
              obtain ⟨⟨hd0, hd1⟩, hd2⟩ := h1
              obtain ⟨⟨he0, he1⟩, he2⟩ := h2
              have hveq : d + s * valLE ss2 ds2 = e + s * valLE ss2 es2 := hv
              have hs : 0 < s := by omega
              have hde : d = e := by
                have e1 : (d + s * valLE ss2 ds2) % s = d := by
                  rw [Int.add_mul_emod_self_left, Int.emod_eq_of_lt hd0 hd1]
                have e2 : (e + s * valLE ss2 es2) % s = e := by
                  rw [Int.add_mul_emod_self_left, Int.emod_eq_of_lt he0 he1]
                rw [← e1, hveq, e2]
              have hVeq : valLE ss2 ds2 = valLE ss2 es2 := by
                have h5 : s * valLE ss2 ds2 = s * valLE ss2 es2 := by omega
                exact mul_left_cancel₀ (by omega) h5
              rw [hde, ih ds2 es2 hd2 he2 hVeq]

/-- The carry-loop dichotomy: an in-range counter either sits at the last
value and the increment signals termination, or the increment (and the
wrapping increment of `ScalarSetitem` likewise) advances it to the in-range
successor value. -/
lemma incrLE_spec : ∀ (ss ds : List ℤ), ss ≠ [] → inRangeLE ss ds = true →
    (valLE ss ds + 1 = prodL ss ∧ incrLE ss ds = none)
    ∨ (∃ es, incrLE ss ds = some es ∧ incrWrapLE ss ds = es
        ∧ inRangeLE ss es = true ∧ valLE ss es = valLE ss ds + 1
        ∧ valLE ss ds + 1 < prodL ss) := by
  intro ss
  induction ss with
  | nil => intro ds h; exact absurd rfl h
  | cons s ss2 ih =>
      intro ds hne h
      cases ds with
      | nil => simp [inRangeLE] at h
      | cons d ds2 =>
          simp only [inRangeLE, Bool.and_eq_true, decide_eq_true_eq] at h
          obtain ⟨⟨h0, h1⟩, h2⟩ := h
          cases ss2 with
          | nil =>
              cases ds2 with
              | cons d2 ds3 => simp [inRangeLE] at h2
              | nil =>
                  by_cases hd : d + 1 < s
                  · right
                    refine ⟨[d + 1], ?_, ?_, ?_, ?_, ?_⟩
                    · simp [incrLE, hd]
                    · simp [incrWrapLE, hd]
                    · simp only [inRangeLE, Bool.and_eq_true, decide_eq_true_eq]
                      exact ⟨⟨by omega, hd⟩, trivial⟩
                    · simp [valLE]
                    · simp [valLE, prodL]; omega
                  · left
                    constructor
                    · simp only [valLE, prodL]; omega
                    · simp [incrLE, hd]
          | cons s2 ss3 =>
              by_cases hd : d + 1 < s
              · right
                refine ⟨(d + 1) :: ds2, ?_, ?_, ?_, ?_, ?_⟩
                · simp [incrLE, hd]
                · simp [incrWrapLE, hd]
                · simp only [inRangeLE, Bool.and_eq_true, decide_eq_true_eq]
                  exact ⟨⟨by omega, hd⟩, h2⟩
                · simp only [valLE]; ring
                · obtain ⟨hV0, hVP⟩ := valLE_bounds (s2 :: ss3) ds2 h2
                  show d + s * valLE (s2 :: ss3) ds2 + 1 < s * prodL (s2 :: ss3)
                  have hs : 0 < s := by omega
                  calc d + s * valLE (s2 :: ss3) ds2 + 1
                      < s + s * valLE (s2 :: ss3) ds2 := by omega
                    _ = s * (valLE (s2 :: ss3) ds2 + 1) := by ring
                    _ ≤ s * prodL (s2 :: ss3) := mul_le_mul_of_nonneg_left (by omega) (le_of_lt hs)
              · have hd1 : d + 1 = s := by omega
                rcases ih ds2 (by simp) h2 with ⟨hv, hinc⟩ | ⟨e, hinc, hwrap, hr, hv, hlt⟩
                · left
                  constructor
                  · show d + s * valLE (s2 :: ss3) ds2 + 1 = s * prodL (s2 :: ss3)
                    calc d + s * valLE (s2 :: ss3) ds2 + 1
                        = s * valLE (s2 :: ss3) ds2 + s := by omega
                      _ = s * (valLE (s2 :: ss3) ds2 + 1) := by ring
                      _ = s * prodL (s2 :: ss3) := by rw [hv]
                  · simp [incrLE, hd, hinc]
                · right
                  refine ⟨0 :: e, ?_, ?_, ?_, ?_, ?_⟩
                  · simp [incrLE, hd, hinc]
                  · simp [incrWrapLE, hd, hwrap]
                  · simp only [inRangeLE, Bool.and_eq_true, decide_eq_true_eq]
                    exact ⟨⟨le_refl 0, by omega⟩, hr⟩
                  · show (0 : ℤ) + s * valLE (s2 :: ss3) e = d + s * valLE (s2 :: ss3) ds2 + 1
                    rw [hv]
                    have : s * (valLE (s2 :: ss3) ds2 + 1)
                        = s * valLE (s2 :: ss3) ds2 + s := by ring
                    omega
                  · show d + s * valLE (s2 :: ss3) ds2 + 1 < s * prodL (s2 :: ss3)
                    have hs : 0 < s := by omega
                    have he1 : d + s * valLE (s2 :: ss3) ds2 + 1
                        = s * (valLE (s2 :: ss3) ds2 + 1) := by
                      have h6 : s * (valLE (s2 :: ss3) ds2 + 1)
                          = s * valLE (s2 :: ss3) ds2 + s := by ring
                      omega
                    rw [he1]
                    exact mul_lt_mul_of_pos_left hlt hs

lemma inRangeLE_replicate : ∀ (ss : List ℤ), (∀ s ∈ ss, 0 < s) →
    inRangeLE ss (List.replicate ss.length 0) = true := by
  intro ss
  induction ss with
  | nil => intro _; rfl
  | cons s ss2 ih =>
      intro h
      simp only [List.length_cons, List.replicate_succ, inRangeLE, Bool.and_eq_true,
        decide_eq_true_eq]
      exact ⟨⟨le_refl 0, h s (List.mem_cons_self s ss2)⟩,
        ih (fun x hx => h x (List.mem_cons_of_mem s hx))⟩

lemma valLE_replicate : ∀ (ss : List ℤ) (k : ℕ), valLE ss (List.replicate k 0) = 0 := by
  intro ss
  induction ss with
  | nil =>
      intro k
      cases k with
      | zero => rfl
      | succ k2 => rfl
  | cons s ss2 ih =>
      intro k
      cases k with
      | zero => rfl
      | succ k2 => simp [List.replicate_succ, valLE, ih]

lemma valBE_bounds (shape idx : List ℤ) (h : inRangeBE shape idx = true) :
    0 ≤ valBE shape idx ∧ valBE shape idx < prodL shape := by
  have h2 := valLE_bounds shape.reverse idx.reverse h
  rwa [prodL_reverse] at h2

lemma valBE_inj (shape d e : List ℤ) (h1 : inRangeBE shape d = true)
    (h2 : inRangeBE shape e = true) (hv : valBE shape d = valBE shape e) : d = e := by
  have h3 := valLE_inj shape.reverse d.reverse e.reverse h1 h2 hv
  have h4 := congrArg List.reverse h3
  simpa using h4

lemma zeros_inRange (shape : List ℤ) (hpos : allPos shape = true) :
    inRangeBE shape (zerosIdx shape) = true := by
  have h1 : ∀ s ∈ shape.reverse, 0 < s := by
    intro s hs
    simp only [allPos, List.all_eq_true, decide_eq_true_eq] at hpos
    exact hpos s (List.mem_reverse.mp hs)
  have h2 := inRangeLE_replicate shape.reverse h1
  rw [List.length_reverse] at h2
  simp only [inRangeBE, zerosIdx, List.reverse_replicate]
  exact h2

lemma zeros_val (shape : List ℤ) : valBE shape (zerosIdx shape) = 0 := by
  simp only [valBE, zerosIdx, List.reverse_replicate]
  exact valLE_replicate shape.reverse shape.length

/-- Length of the visited-index sequence: the loop stops exactly when the
counter has run from its current value to `prodL shape`. -/
lemma indexSeq_length (shape : List ℤ) (hne : shape ≠ []) :
    ∀ (fuel : ℕ) (idx : List ℤ), inRangeBE shape idx = true →
      (indexSeq shape fuel idx).length = min fuel (prodL shape - valBE shape idx).toNat := by
  intro fuel
  induction fuel with
  | zero => intro idx h; simp [indexSeq]
  | succ fuel ih =>
      intro idx h
      have hneR : shape.reverse ≠ [] := by simpa using hne
      have hpr := prodL_reverse shape
      have hb := valLE_bounds shape.reverse idx.reverse h
      rcases incrLE_spec shape.reverse idx.reverse hneR h
        with ⟨hv, hinc⟩ | ⟨e, hinc, hwrap, hr, hv, hlt⟩
      · have hI : incrIndex shape idx = none := by simp [incrIndex, hinc]
        simp only [indexSeq, hI, List.length_cons, List.length_nil, valBE]
        omega
      · have hI : incrIndex shape idx = some e.reverse := by simp [incrIndex, hinc]
        have hrBE : inRangeBE shape e.reverse = true := by
          simp only [inRangeBE, List.reverse_reverse]; exact hr
        simp only [indexSeq, hI, List.length_cons]
        rw [ih e.reverse hrBE]
        simp only [valBE, List.reverse_reverse]
        rw [hv]
        omega

/-- The `c`-th visited index vector is in range and has row-major rank
`c` above the starting vector. -/
lemma indexSeq_getD (shape : List ℤ) (hne : shape ≠ []) :
    ∀ (fuel : ℕ) (idx : List ℤ), inRangeBE shape idx = true →
      ∀ c : ℕ, c < (indexSeq shape fuel idx).length →
        inRangeBE shape ((indexSeq shape fuel idx).getD c []) = true
        ∧ valBE shape ((indexSeq shape fuel idx).getD c [])
          = valBE shape idx + (c : ℤ) := by
  intro fuel
  induction fuel with
  | zero => intro idx h c hc; simp [indexSeq] at hc
  | succ fuel ih =>
      intro idx h c hc
      have hneR : shape.reverse ≠ [] := by simpa using hne
      rcases incrLE_spec shape.reverse idx.reverse hneR h
        with ⟨hv, hinc⟩ | ⟨e, hinc, hwrap, hr, hv, hlt⟩
      · have hI : incrIndex shape idx = none := by simp [incrIndex, hinc]
        simp only [indexSeq, hI] at hc ⊢
        have hc0 : c = 0 := by
          simp only [List.length_cons, List.length_nil] at hc
          omega
        subst hc0
        simp only [List.getD_cons_zero]
        exact ⟨h, by simp⟩
      · have hI : incrIndex shape idx = some e.reverse := by simp [incrIndex, hinc]
        have hrBE : inRangeBE shape e.reverse = true := by
          simp only [inRangeBE, List.reverse_reverse]; exact hr
        simp only [indexSeq, hI] at hc ⊢
        cases c with
        | zero =>
            simp only [List.getD_cons_zero]
            exact ⟨h, by simp⟩
        | succ c2 =>
            have hc2 : c2 < (indexSeq shape fuel e.reverse).length := by
              simp only [List.length_cons] at hc
              omega
            have hrec := ih e.reverse hrBE c2 hc2
            simp only [List.getD_cons_succ]
            refine ⟨hrec.1, ?_⟩
            rw [hrec.2]
            have hvBE : valBE shape e.reverse = valBE shape idx + 1 := by
              simp only [valBE, List.reverse_reverse]
              exact hv
            rw [hvBE]
            push_cast
            ring

/-- As long as the counted loop of `ScalarSetitem` stays within the first
`prodL shape` steps, its wrapping counter visits exactly the same index
vectors as the self-terminating counter of `Compact`/`EwiseSetitem`. -/
lemma wrapSeq_eq (shape : List ℤ) (hne : shape ≠ []) :
    ∀ (fuel : ℕ) (idx : List ℤ), inRangeBE shape idx = true →
      (fuel : ℤ) ≤ prodL shape - valBE shape idx →
      wrapSeq shape fuel idx = indexSeq shape fuel idx := by
  intro fuel
  induction fuel with
  | zero => intro idx _ _; rfl
  | succ fuel ih =>
      intro idx h hb
      have hneR : shape.reverse ≠ [] := by simpa using hne
      have hpr := prodL_reverse shape
      rcases incrLE_spec shape.reverse idx.reverse hneR h
        with ⟨hv, hinc⟩ | ⟨e, hinc, hwrap, hr, hv, hlt⟩
      · have hI : incrIndex shape idx = none := by simp [incrIndex, hinc]
        have hf : fuel = 0 := by
          simp only [valBE] at hb
          omega
        subst hf
        simp [wrapSeq, indexSeq, hI]
      · have hI : incrIndex shape idx = some e.reverse := by simp [incrIndex, hinc]
        have hW : incrWrap shape idx = e.reverse := by simp [incrWrap, hwrap]
        have hrBE : inRangeBE shape e.reverse = true := by
          simp only [inRangeBE, List.reverse_reverse]; exact hr
        have hbound : (fuel : ℤ) ≤ prodL shape - valBE shape e.reverse := by
          have hvBE : valBE shape e.reverse = valBE shape idx + 1 := by
            simp only [valBE, List.reverse_reverse]
            exact hv
          rw [hvBE]
          simp only [valBE] at hb ⊢
          omega
        simp only [wrapSeq, indexSeq, hI, hW, ih e.reverse hrBE hbound]

/-- `Compact` has not yet written the cells below its current counter. -/
lemma compactAux_frame (a : Buf) (strides : List ℤ) (offset : ℤ) :
    ∀ (l : List (List ℤ)) (out : Buf) (cnt : ℤ) (q : ℤ), q < cnt →
      CompactAux a strides offset out cnt l q = out q := by
  intro l
  induction l with
  | nil => intro out cnt q _; rfl
  | cons idx rest ih =>
      intro out cnt q h
      simp only [CompactAux]
      rw [ih (store out cnt (a (posOf strides offset idx))) (cnt + 1) q (by omega),
        store_other out cnt _ (by omega)]

/-- After `Compact`'s write loop, destination cell `cnt + c` holds the
source element addressed by the `c`-th visited index vector. -/
lemma compactAux_read (a : Buf) (strides : List ℤ) (offset : ℤ) :
    ∀ (l : List (List ℤ)) (out : Buf) (cnt : ℤ) (c : ℕ), c < l.length →
      CompactAux a strides offset out cnt l (cnt + (c : ℤ))
        = a (posOf strides offset (l.getD c [])) := by
  intro l
  induction l with
  | nil => intro out cnt c h; simp at h
  | cons idx rest ih =>
      intro out cnt c h
      simp only [CompactAux]
      cases c with
      | zero =>
          rw [compactAux_frame a strides offset rest _ (cnt + 1) _ (by
            have hz : ((0 : ℕ) : ℤ) = 0 := rfl
            omega)]
          simp only [List.getD_cons_zero]
          rw [show cnt + ((0 : ℕ) : ℤ) = cnt from by simp]
          exact store_same out cnt _
      | succ c2 =>
          rw [show cnt + ((c2 + 1 : ℕ) : ℤ) = (cnt + 1) + (c2 : ℤ) from by push_cast; ring,
            ih (store out cnt (a (posOf strides offset idx))) (cnt + 1) c2
              (by simpa using h)]
          simp only [List.getD_cons_succ]

/-- `EwiseSetitem` leaves untouched every cell that is not the position of
one of the remaining visited index vectors. -/
lemma scatterAux_frame (a : Buf) (strides : List ℤ) (offset : ℤ) :
    ∀ (l : List (List ℤ)) (out : Buf) (cnt : ℤ) (q : ℤ),
      (∀ c2 : ℕ, c2 < l.length → posOf strides offset (l.getD c2 []) ≠ q) →
      EwiseSetitemAux a strides offset out cnt l q = out q := by
  intro l
  induction l with
  | nil => intro out cnt q _; rfl
  | cons idx rest ih =>
      intro out cnt q h
      simp only [EwiseSetitemAux]
      have h1 : ∀ c2 : ℕ, c2 < rest.length → posOf strides offset (rest.getD c2 []) ≠ q := by
        intro c2 hc2
        have h2 := h (c2 + 1) (by simp only [List.length_cons]; omega)
        simpa using h2
      have h0 : posOf strides offset idx ≠ q := by
        have h2 := h 0 (by simp only [List.length_cons]; omega)
        simpa using h2
      rw [ih (store out (posOf strides offset idx) (a cnt)) (cnt + 1) q h1,
        store_other out _ _ (fun he => h0 he.symm)]

/-- When the visited positions are pairwise distinct, `EwiseSetitem` leaves
at the position of the `c`-th visited index vector the `c`-th element of the
compact source. -/
lemma scatterAux_at (a : Buf) (strides : List ℤ) (offset : ℤ) :
    ∀ (l : List (List ℤ)) (out : Buf) (cnt : ℤ) (c : ℕ), c < l.length →
      (∀ c2 : ℕ, c2 < l.length →
        posOf strides offset (l.getD c2 []) = posOf strides offset (l.getD c []) → c2 = c) →
      EwiseSetitemAux a strides offset out cnt l (posOf strides offset (l.getD c []))
        = a (cnt + (c : ℤ)) := by
  intro l
  induction l with
  | nil => intro out cnt c h _; simp at h
  | cons idx rest ih =>
      intro out cnt c h hinj
      simp only [EwiseSetitemAux]
      cases c with
      | zero =>
          simp only [List.getD_cons_zero]
          have h1 : ∀ c2 : ℕ, c2 < rest.length →
              posOf strides offset (rest.getD c2 []) ≠ posOf strides offset idx := by
            intro c2 hc2 he
            have he2 : posOf strides offset ((idx :: rest).getD (c2 + 1) [])
                = posOf strides offset ((idx :: rest).getD 0 []) := by
              simp only [List.getD_cons_succ, List.getD_cons_zero]
              exact he
            have h2 := hinj (c2 + 1) (by simp only [List.length_cons]; omega) he2
            omega
          rw [scatterAux_frame a strides offset rest _ (cnt + 1) _ h1,
            show cnt + ((0 : ℕ) : ℤ) = cnt from by simp]
          exact store_same out _ _
      | succ c2 =>
          simp only [List.getD_cons_succ]
          have h1 : ∀ c3 : ℕ, c3 < rest.length →
              posOf strides offset (rest.getD c3 []) = posOf strides offset (rest.getD c2 []) →
              c3 = c2 := by
            intro c3 hc3 he
            have he2 : posOf strides offset ((idx :: rest).getD (c3 + 1) [])
                = posOf strides offset ((idx :: rest).getD (c2 + 1) []) := by
              simp only [List.getD_cons_succ]
              exact he
            have h2 := hinj (c3 + 1) (by simp only [List.length_cons]; omega) he2
            omega
          rw [ih (store out (posOf strides offset idx) (a cnt)) (cnt + 1) c2
            (by simpa using h) h1]
          congr 1
          push_cast
          ring

/-- Equal base-plus-offset cells with equal bases have equal offsets. -/
lemma offCellNe {oo : ℤ} {u v : ℕ} (h : u ≠ v) :
    oo + ((u : ℕ) : ℤ) ≠ oo + ((v : ℕ) : ℤ) := by
  intro he
  exact h (by exact_mod_cast add_left_cancel he)

/-- Splitting a sum over `a * b` consecutive indices into `a` blocks of
`b`. -/
lemma sum_range_mul_regroup (g : ℕ → ℚ) :
    ∀ (a b : ℕ), ∑ k ∈ Finset.range (a * b), g k
      = ∑ u ∈ Finset.range a, ∑ v ∈ Finset.range b, g (b * u + v) := by
  intro a
  induction a with
  | zero => intro b; simp
  | succ a ih =>
      intro b
      rw [Nat.succ_mul, Finset.sum_range_add, ih b, Finset.sum_range_succ]
      exact congrArg (_ + ·) (Finset.sum_congr rfl (fun v _ => by rw [Nat.mul_comm a b]))

/-- Distinct tile bases (with in-tile offsets below 64) address distinct
cells of the block-major layout. -/
lemma tileBaseInj {p2 i2 j2 i3 j3 r t : ℕ} (hj2 : j2 < p2) (hj3 : j3 < p2)
    (hr : r < 64) (ht : t < 64)
    (h : 8 * i2 * (8 * p2) + 8 * j2 * 8 + r = 8 * i3 * (8 * p2) + 8 * j3 * 8 + t) :
    i2 = i3 ∧ j2 = j3 ∧ r = t := by
  have h2 : (i2 * p2 + j2) * 64 + r = (i3 * p2 + j3) * 64 + t := by
    calc (i2 * p2 + j2) * 64 + r = 8 * i2 * (8 * p2) + 8 * j2 * 8 + r := by ring
      _ = 8 * i3 * (8 * p2) + 8 * j3 * 8 + t := h
      _ = (i3 * p2 + j3) * 64 + t := by ring
  have h3 := rowMajorInj hr ht h2
  have h4 := rowMajorInj hj2 hj3 h3.1
  exact ⟨h4.1, h4.2, h3.2⟩

/-- Every cell of a tile of the block-major layout lies below `m * p`. -/
lemma tileCellLt {m2 p2 i2 j2 r : ℕ} (hi2 : i2 < m2) (hj2 : j2 < p2) (hr : r < 64) :
    8 * i2 * (8 * p2) + 8 * j2 * 8 + r < 8 * m2 * (8 * p2) := by
  have h1 : i2 * p2 + j2 + 1 ≤ m2 * p2 := by
    have h2 : i2 * p2 + j2 + 1 ≤ i2 * p2 + p2 := by omega
    have h3 : i2 * p2 + p2 = (i2 + 1) * p2 := by ring
    have h4 : (i2 + 1) * p2 ≤ m2 * p2 := mul_le_mul_right' (by omega) p2
    omega
  calc 8 * i2 * (8 * p2) + 8 * j2 * 8 + r
      < (i2 * p2 + j2) * 64 + 64 := by
        have h5 : 8 * i2 * (8 * p2) + 8 * j2 * 8 = (i2 * p2 + j2) * 64 := by ring
        omega
    _ = (i2 * p2 + j2 + 1) * 64 := by ring
    _ ≤ (m2 * p2) * 64 := mul_le_mul_right' h1 64
    _ = 8 * m2 * (8 * p2) := by ring

/-- An in-bounds cell of a `Fill`ed buffer holds the fill value. -/
lemma fill_entry (out : Buf) (sz : ℕ) (v : ℚ) (q : ℤ) (h0 : 0 ≤ q) (hq : q < (sz : ℤ)) :
    Fill out sz v q = v := by
  refine foldl_single (fun _ => v) sz q.toNat (by omega) ?_ ?_ out
  · intro o k hk hne
    refine store_other o _ _ ?_
    intro he
    apply hne
    omega
  · intro o
    show (if q = ((q.toNat : ℕ) : ℤ) then v else o q) = v
    rw [if_pos (by omega)]

/-- The microkernel `AlignedDot` adds the 8-term dot product of its operand
tiles to the output cell at in-tile position `(x, y)`. -/
lemma alignedDot_entry (a : Buf) (ao : ℤ) (b : Buf) (bo : ℤ) (oo : ℤ) (x y : ℕ)
    (hx : x < 8) (hy : y < 8) (o : Buf) :
    AlignedDot a ao b bo o oo (oo + ((x * 8 + y : ℕ) : ℤ))
      = o (oo + ((x * 8 + y : ℕ) : ℤ))
        + ∑ k ∈ Finset.range 8,
            a (ao + ((x * 8 + k : ℕ) : ℤ)) * b (bo + ((k * 8 + y : ℕ) : ℤ)) := by
  refine foldl_single
    (fun z => z + ∑ k ∈ Finset.range 8,
      a (ao + ((x * 8 + k : ℕ) : ℤ)) * b (bo + ((k * 8 + y : ℕ) : ℤ)))
    8 x hx ?_ ?_ o
  · intro o1 i2 hi2 hne
    refine foldl_frame (List.range 8) ?_ o1
    intro o2 j2 hj2
    refine foldl_frame (List.range 8) ?_ o2
    intro o3 k hk
    refine store_other o3 _ _ (offCellNe ?_)
    intro he
    exact hne (rowMajorInj hy (List.mem_range.mp hj2) he).1.symm
  · intro o1
    refine foldl_single
      (fun z => z + ∑ k ∈ Finset.range 8,
        a (ao + ((x * 8 + k : ℕ) : ℤ)) * b (bo + ((k * 8 + y : ℕ) : ℤ)))
      8 y hy ?_ ?_ o1
    · intro o2 j2 hj2 hne
      refine foldl_frame (List.range 8) ?_ o2
      intro o3 k hk
      refine store_other o3 _ _ (offCellNe ?_)
      intro he
      exact hne (by omega)
    · intro o2
      exact foldl_acc
        (fun k => a (ao + ((x * 8 + k : ℕ) : ℤ)) * b (bo + ((k * 8 + y : ℕ) : ℤ)))
        8 (fun o3 k _ => store_same o3 _ _) o2

/-- The microkernel `AlignedDot` leaves every cell outside its output tile
unchanged. -/
lemma alignedDot_frame (a : Buf) (ao : ℤ) (b : Buf) (bo : ℤ) (oo : ℤ) (q : ℤ)
    (hq : ∀ t : ℕ, t < 64 → q ≠ oo + ((t : ℕ) : ℤ)) (o : Buf) :
    AlignedDot a ao b bo o oo q = o q := by
  refine foldl_frame (List.range 8) ?_ o
  intro o1 i2 hi2
  refine foldl_frame (List.range 8) ?_ o1
  intro o2 j2 hj2
  refine foldl_frame (List.range 8) ?_ o2
  intro o3 k hk
  refine store_other o3 _ _ (hq (i2 * 8 + j2) ?_)
  have h1 := List.mem_range.mp hi2
  have h2 := List.mem_range.mp hj2
  omega

/-- Value of one `MatmulTiled` output cell, in tile coordinates: zero plus
the per-contraction-tile microkernel contributions (shared helper). -/
lemma matmulTiled_entry (a b out : Buf) (m n p m2 n2 p2 : ℕ)
    (hm : m = 8 * m2) (hn : n = 8 * n2) (hp : p = 8 * p2)
    (i2 j2 x y : ℕ) (hi2 : i2 < m2) (hj2 : j2 < p2) (hx : x < 8) (hy : y < 8) :
    MatmulTiled a b out m n p
        (((8 * i2 * p + 8 * j2 * 8 : ℕ) : ℤ) + ((x * 8 + y : ℕ) : ℤ))
      = ∑ k2 ∈ Finset.range n2, ∑ kk ∈ Finset.range 8,
          a (((8 * i2 * n + 8 * k2 * 8 : ℕ) : ℤ) + ((x * 8 + kk : ℕ) : ℤ))
            * b (((8 * k2 * p + 8 * j2 * 8 : ℕ) : ℤ) + ((kk * 8 + y : ℕ) : ℤ)) := by
  have hm8 : (m + 7) / 8 = m2 := by omega
  have hn8 : (n + 7) / 8 = n2 := by omega
  have hp8 : (p + 7) / 8 = p2 := by omega
  have hfill : Fill out (m * p) 0
      (((8 * i2 * p + 8 * j2 * 8 : ℕ) : ℤ) + ((x * 8 + y : ℕ) : ℤ)) = 0 := by
    have hlt : 8 * i2 * p + 8 * j2 * 8 + (x * 8 + y) < m * p := by
      subst hm
      subst hp
      exact tileCellLt hi2 hj2 (by omega)
    exact fill_entry out (m * p) 0 _ (by positivity) (by exact_mod_cast hlt)
  have hkframe : ∀ (i3 j3 : ℕ), j3 < p2 → ¬(i3 = i2 ∧ j3 = j2) → ∀ o : Buf,
      ((List.range n2).foldl
        (fun o3 k2' => AlignedDot a ((8 * i3 * n + 8 * k2' * 8 : ℕ) : ℤ)
          b ((8 * k2' * p + 8 * j3 * 8 : ℕ) : ℤ) o3 ((8 * i3 * p + 8 * j3 * 8 : ℕ) : ℤ)) o)
        (((8 * i2 * p + 8 * j2 * 8 : ℕ) : ℤ) + ((x * 8 + y : ℕ) : ℤ))
      = o (((8 * i2 * p + 8 * j2 * 8 : ℕ) : ℤ) + ((x * 8 + y : ℕ) : ℤ)) := by
    intro i3 j3 hj3 hne o
    refine foldl_frame (List.range n2) ?_ o
    intro o3 k2' hk2'
    refine alignedDot_frame a _ b _ _ _ ?_ o3
    intro t ht he
    have heN : 8 * i2 * p + 8 * j2 * 8 + (x * 8 + y) = 8 * i3 * p + 8 * j3 * 8 + t := by
      exact_mod_cast he
    subst hp
    have h3 := tileBaseInj hj2 hj3 (by omega) ht heN
    exact hne ⟨h3.1.symm, h3.2.1.symm⟩
  have hvalK : ∀ o : Buf,
      ((List.range n2).foldl
        (fun o3 k2' => AlignedDot a ((8 * i2 * n + 8 * k2' * 8 : ℕ) : ℤ)
          b ((8 * k2' * p + 8 * j2 * 8 : ℕ) : ℤ) o3 ((8 * i2 * p + 8 * j2 * 8 : ℕ) : ℤ)) o)
        (((8 * i2 * p + 8 * j2 * 8 : ℕ) : ℤ) + ((x * 8 + y : ℕ) : ℤ))
      = o (((8 * i2 * p + 8 * j2 * 8 : ℕ) : ℤ) + ((x * 8 + y : ℕ) : ℤ))
        + ∑ k2 ∈ Finset.range n2, ∑ kk ∈ Finset.range 8,
            a (((8 * i2 * n + 8 * k2 * 8 : ℕ) : ℤ) + ((x * 8 + kk : ℕ) : ℤ))
              * b (((8 * k2 * p + 8 * j2 * 8 : ℕ) : ℤ) + ((kk * 8 + y : ℕ) : ℤ)) := by
    intro o
    refine foldl_acc
      (fun k2 => ∑ kk ∈ Finset.range 8,
        a (((8 * i2 * n + 8 * k2 * 8 : ℕ) : ℤ) + ((x * 8 + kk : ℕ) : ℤ))
          * b (((8 * k2 * p + 8 * j2 * 8 : ℕ) : ℤ) + ((kk * 8 + y : ℕ) : ℤ)))
      n2 ?_ o
    intro o3 k2' hk2'
    exact alignedDot_entry a _ b _ _ x y hx hy o3
  simp only [MatmulTiled, hm8, hn8, hp8]
  rw [foldl_single
    (fun z => z + ∑ k2 ∈ Finset.range n2, ∑ kk ∈ Finset.range 8,
      a (((8 * i2 * n + 8 * k2 * 8 : ℕ) : ℤ) + ((x * 8 + kk : ℕ) : ℤ))
        * b (((8 * k2 * p + 8 * j2 * 8 : ℕ) : ℤ) + ((kk * 8 + y : ℕ) : ℤ)))
    m2 i2 hi2
    (fun o1 i3 hi3 hne =>
      foldl_frame (List.range p2)
        (fun o2 j3 hj3 =>
          hkframe i3 j3 (List.mem_range.mp hj3) (fun hpair => hne hpair.1) o2) o1)
    (fun o1 =>
      foldl_single
        (fun z => z + ∑ k2 ∈ Finset.range n2, ∑ kk ∈ Finset.range 8,
          a (((8 * i2 * n + 8 * k2 * 8 : ℕ) : ℤ) + ((x * 8 + kk : ℕ) : ℤ))
            * b (((8 * k2 * p + 8 * j2 * 8 : ℕ) : ℤ) + ((kk * 8 + y : ℕ) : ℤ)))
        p2 j2 hj2
        (fun o2 j3 hj3 hne => hkframe i2 j3 hj3 (fun hpair => hne hpair.2) o2)
        hvalK o1)
    (Fill out (m * p) 0), hfill, zero_add]

/-- C3: for `m`, `n`, `p` exact multiples of the tile width 8, with the
tiled operands `a`, `b` holding the block-major 4D tiling of the same
matrices the flat operands `af`, `bf` hold row-major, `MatmulTiled`
produces at every block-major output position exactly the value the naive
`Matmul` produces at the corresponding row-major position (exact
arithmetic; only floating-point rounding order differs in the C code). -/
theorem matmul_tiled_refines_naive (a b out af bf out2 : Buf) (m n p m2 n2 p2 : ℕ)
    (hm : m = 8 * m2) (hn : n = 8 * n2) (hp : p = 8 * p2)
    (ha : ∀ i k, i < m → k < n → a (tIdx n i k) = af ((i * n + k : ℕ) : ℤ))
    (hb : ∀ k j, k < n → j < p → b (tIdx p k j) = bf ((k * p + j : ℕ) : ℤ))
    (i j : ℕ) (hi : i < m) (hj : j < p) :
    MatmulTiled a b out m n p (tIdx p i j)
      = Matmul af bf out2 m n p ((i * p + j : ℕ) : ℤ) := by
  rw [matmul_cell af bf out2 m n p i j hi hj]
  have hcellN : ((i / 8) * (p / 8) + j / 8) * 64 + (i % 8) * 8 + j % 8
      = 8 * (i / 8) * p + 8 * (j / 8) * 8 + (i % 8 * 8 + j % 8) := by
    subst hp
    rw [show (8 * p2) / 8 = p2 from by omega]
    generalize i / 8 = u
    generalize j / 8 = v
    ring
  have hcell : tIdx p i j
      = ((8 * (i / 8) * p + 8 * (j / 8) * 8 : ℕ) : ℤ) + ((i % 8 * 8 + j % 8 : ℕ) : ℤ) := by
    simp only [tIdx]
    rw [← Nat.cast_add]
    exact congrArg _ hcellN
  rw [hcell, matmulTiled_entry a b out m n p m2 n2 p2 hm hn hp (i / 8) (j / 8) (i % 8) (j % 8)
    (by omega) (by omega) (by omega) (by omega)]
  have hregroup : ∑ k ∈ Finset.range n, af ((i * n + k : ℕ) : ℤ) * bf ((k * p + j : ℕ) : ℤ)
      = ∑ k2 ∈ Finset.range n2, ∑ kk ∈ Finset.range 8,
          af ((i * n + (8 * k2 + kk) : ℕ) : ℤ) * bf (((8 * k2 + kk) * p + j : ℕ) : ℤ) := by
    rw [show n = n2 * 8 from by omega]
    exact sum_range_mul_regroup _ n2 8
  rw [hregroup]
  refine Finset.sum_congr rfl ?_
  intro k2 hk2
  refine Finset.sum_congr rfl ?_
  intro kk hkk
  have hk2n : k2 < n2 := Finset.mem_range.mp hk2
  have hkk8 : kk < 8 := Finset.mem_range.mp hkk
  have haIdx : (((8 * (i / 8) * n + 8 * k2 * 8 : ℕ) : ℤ) + ((i % 8 * 8 + kk : ℕ) : ℤ))
      = tIdx n i (8 * k2 + kk) := by
    simp only [tIdx]
    rw [← Nat.cast_add]
    refine congrArg _ ?_
    subst hn
    rw [show (8 * n2) / 8 = n2 from by omega,
      show (8 * k2 + kk) / 8 = k2 from by omega,
      show (8 * k2 + kk) % 8 = kk from by omega]
    generalize i / 8 = u
    ring
  have hbIdx : (((8 * k2 * p + 8 * (j / 8) * 8 : ℕ) : ℤ) + ((kk * 8 + j % 8 : ℕ) : ℤ))
      = tIdx p (8 * k2 + kk) j := by
    simp only [tIdx]
    rw [← Nat.cast_add]
    refine congrArg _ ?_
    subst hp
    rw [show (8 * p2) / 8 = p2 from by omega,
      show (8 * k2 + kk) / 8 = k2 from by omega,
      show (8 * k2 + kk) % 8 = kk from by omega]
    generalize j / 8 = v
    ring
  rw [haIdx, hbIdx, ha i (8 * k2 + kk) hi (by omega), hb (8 * k2 + kk) j (by omega) hj]

/-- Witness for `matmul_tiled_refines_naive` at `m = n = p = 8` with
constant operand matrices: the tiled and naive products agree at the
top-left position, whose common value is 16. -/
theorem matmul_tiled_refines_naive_witness :
    MatmulTiled (fun _ => 1) (fun _ => 2) (fun _ => 0) 8 8 8 (tIdx 8 0 0)
      = Matmul (fun _ => 1) (fun _ => 2) (fun _ => 0) 8 8 8 ((0 * 8 + 0 : ℕ) : ℤ)
    ∧ Matmul (fun _ => 1) (fun _ => 2) (fun _ => 0) 8 8 8 ((0 * 8 + 0 : ℕ) : ℤ) = 16 := by
  constructor
  · exact matmul_tiled_refines_naive (fun _ => 1) (fun _ => 2) (fun _ => 0)
      (fun _ => 1) (fun _ => 2) (fun _ => 0) 8 8 8 1 1 1 rfl rfl rfl
      (fun _ _ _ _ => rfl) (fun _ _ _ _ => rfl) 0 0 (by norm_num) (by norm_num)
  · rw [matmul_cell (fun _ => 1) (fun _ => 2) (fun _ => 0) 8 8 8 0 0 (by norm_num)
      (by norm_num)]
    norm_num

/-- The value of one `GridSample` output cell: its previous contents plus
the four weighted neighbor contributions of its own loop iteration. -/
lemma gridSample_entry (a grid out : Buf) (B C H W : ℕ) (i : ℕ) (hi : i < B * C * H * W) :
    GridSample a grid out B C H W ((i : ℕ) : ℤ)
      = out ((i : ℕ) : ℤ)
        + ∑ k ∈ Finset.range 4,
            a (aPtrG grid C H W i k) * wG (dxQ grid C H W i) (xxG k)
              * wG (dyQ grid C H W i) (yyG k) := by
  refine foldl_single
    (fun x => x + ∑ k ∈ Finset.range 4,
      a (aPtrG grid C H W i k) * wG (dxQ grid C H W i) (xxG k) * wG (dyQ grid C H W i) (yyG k))
    (B * C * H * W) i hi ?_ ?_ out
  · intro o i2 hi2 hne
    refine foldl_frame (List.range 4) ?_ o
    intro o2 k hk
    exact store_other o2 _ _ (fun he => hne (Eq.symm (by exact_mod_cast he)))
  · intro o
    exact foldl_acc
      (fun k => a (aPtrG grid C H W i k) * wG (dxQ grid C H W i) (xxG k)
        * wG (dyQ grid C H W i) (yyG k))
      4 (fun o2 k _ => store_same o2 _ _) o

/-- C7: `GridSample` never zeroes its destination: each output cell ends at
its previous value plus the bilinearly weighted sum of the four
padded-source neighbors, with weights `(1-dx)(1-dy)`, `dx(1-dy)`,
`(1-dx)dy` and `dx·dy`. -/
theorem gridsample_accumulates (a grid out : Buf) (B C H W : ℕ) (i : ℕ)
    (hi : i < B * C * H * W) :
    GridSample a grid out B C H W ((i : ℕ) : ℤ)
      = out ((i : ℕ) : ℤ)
        + (1 - dxQ grid C H W i) * (1 - dyQ grid C H W i)
            * a (((i / (H * W) : ℕ) : ℤ) * (((H : ℤ) + 2) * ((W : ℤ) + 2))
                + yInd grid C H W i * ((W : ℤ) + 2) + xInd grid C H W i)
        + dxQ grid C H W i * (1 - dyQ grid C H W i)
            * a (((i / (H * W) : ℕ) : ℤ) * (((H : ℤ) + 2) * ((W : ℤ) + 2))
                + yInd grid C H W i * ((W : ℤ) + 2) + (xInd grid C H W i + 1))
        + (1 - dxQ grid C H W i) * dyQ grid C H W i
            * a (((i / (H * W) : ℕ) : ℤ) * (((H : ℤ) + 2) * ((W : ℤ) + 2))
                + (yInd grid C H W i + 1) * ((W : ℤ) + 2) + xInd grid C H W i)
        + dxQ grid C H W i * dyQ grid C H W i
            * a (((i / (H * W) : ℕ) : ℤ) * (((H : ℤ) + 2) * ((W : ℤ) + 2))
                + (yInd grid C H W i + 1) * ((W : ℤ) + 2) + (xInd grid C H W i + 1)) := by
  rw [gridSample_entry a grid out B C H W i hi, Finset.sum_range_succ, Finset.sum_range_succ,
    Finset.sum_range_succ, Finset.sum_range_succ, Finset.sum_range_zero]
  simp only [aPtrG, xxG, yyG, wG]
  norm_num
  ring

/-- Witness for `gridsample_accumulates`: with `B = C = H = W = 1`, grid
coordinate `(0,0)` (which maps onto the padded lattice, `dx = dy = 0`) and a
destination previously holding 100, the output cell ends at
`100 + source pixel (1,1) = 100 + 14`. -/
theorem gridsample_accumulates_witness :
    GridSample nineBuf (fun _ => 0) (fun _ => 100) 1 1 1 1 ((0 : ℕ) : ℤ) = 114 := by
  rw [gridsample_accumulates nineBuf (fun _ => 0) (fun _ => 100) 1 1 1 1 0 (by norm_num)]
  norm_num [dxQ, dyQ, xTrans, yTrans, xInd, yInd, trunc, gridPtr, nineBuf]

/-- C6: a grid coordinate that lands exactly on a padded-source lattice
point (`dx = dy = 0`) makes the corresponding output cell of a
zero-initialized destination equal to that source pixel exactly; the other
three neighbors contribute zero. -/
theorem gridsample_lattice_exact (a grid : Buf) (B C H W : ℕ) (i : ℕ)
    (hi : i < B * C * H * W)
    (hdx : dxQ grid C H W i = 0) (hdy : dyQ grid C H W i = 0) :
    GridSample a grid (fun _ => 0) B C H W ((i : ℕ) : ℤ)
      = a (((i / (H * W) : ℕ) : ℤ) * (((H : ℤ) + 2) * ((W : ℤ) + 2))
          + yInd grid C H W i * ((W : ℤ) + 2) + xInd grid C H W i) := by
  rw [gridSample_entry a grid (fun _ => 0) B C H W i hi, Finset.sum_range_succ,
    Finset.sum_range_succ, Finset.sum_range_succ, Finset.sum_range_succ, Finset.sum_range_zero]
  simp only [aPtrG, xxG, yyG, wG, hdx, hdy]
  norm_num

/-- Witness for `gridsample_lattice_exact`: with `B = C = H = W = 1` and
grid coordinate `(0,0)`, the mapped point is the padded pixel `(1,1)` and
the output reproduces its value 14 exactly. -/
theorem gridsample_lattice_exact_witness :
    GridSample nineBuf (fun _ => 0) (fun _ => 0) 1 1 1 1 ((0 : ℕ) : ℤ) = 14 := by
  have h := gridsample_lattice_exact nineBuf (fun _ => 0) 1 1 1 1 0 (by norm_num)
    (by norm_num [dxQ, xTrans, xInd, trunc, gridPtr])
    (by norm_num [dyQ, yTrans, yInd, trunc, gridPtr])
  rw [h]
  norm_num [xInd, yInd, xTrans, yTrans, trunc, gridPtr, nineBuf]

/-- Witness for `reduce_blocks`: with `a = [1,2,3,4,5,6]` and
`reduce_size = 3`, sum reduction yields `[6, 15]` and max reduction yields
`[3, 6]`. -/
theorem reduce_blocks_witness :
    ReduceSum sixBuf (fun _ => 0) 2 3 0 = 6 ∧
    ReduceSum sixBuf (fun _ => 0) 2 3 1 = 15 ∧
    ReduceMax sixBuf (fun _ => 0) 2 3 0 = 3 ∧
    ReduceMax sixBuf (fun _ => 0) 2 3 1 = 6 ∧
    ∃ j, j < 3 ∧ ReduceMax sixBuf (fun _ => 0) 2 3 ((1 : ℕ) : ℤ)
      = sixBuf ((1 * 3 + j : ℕ) : ℤ) := by
  have h2 : List.range 2 = [0, 1] := rfl
  have h3 : List.range 3 = [0, 1, 2] := rfl
  refine ⟨?_, ?_, ?_, ?_,
    (reduce_blocks sixBuf (fun _ => 0) 2 3 (by norm_num) 1 (by norm_num)).2.2⟩
  all_goals norm_num [ReduceSum, ReduceMax, h2, h3, store, sixBuf, max_def]

/-- C8: `Compact` writes the destination in row-major compact order, the
last dimension varying fastest: for every in-range index vector `d` of a
nonempty all-positive shape, destination cell `rank(d)` (the row-major rank
of `d`) receives the source element at strided position
`offset + Σ d[i]·strides[i]`.  In particular compacting shape `[2,3]`,
strides `[3,1]`, offset 0 over `[0…5]` is the identity, and strides `[1,2]`
(the transposed view) yields `[0,2,4,1,3,5]` — the witness checks both
tables. -/
theorem compact_row_major (a out : Buf) (shape strides : List ℤ) (offset : ℤ)
    (hne : shape ≠ []) (hpos : allPos shape = true)
    (d : List ℤ) (hd : inRangeBE shape d = true) :
    Compact a out shape strides offset (valBE shape d) = a (posOf strides offset d) := by
  have h0 := zeros_inRange shape hpos
  have hv0 := zeros_val shape
  have hb := valBE_bounds shape d hd
  have hlen : (indexSeq shape (prodL shape).toNat (zerosIdx shape)).length
      = (prodL shape).toNat := by
    rw [indexSeq_length shape hne (prodL shape).toNat (zerosIdx shape) h0, hv0]
    omega
  have hc : (valBE shape d).toNat
      < (indexSeq shape (prodL shape).toNat (zerosIdx shape)).length := by
    rw [hlen]
    omega
  have hget := indexSeq_getD shape hne (prodL shape).toNat (zerosIdx shape) h0
    (valBE shape d).toNat hc
  have hgd : (indexSeq shape (prodL shape).toNat (zerosIdx shape)).getD
      (valBE shape d).toNat [] = d := by
    refine valBE_inj shape _ d hget.1 hd ?_
    rw [hget.2, hv0]
    omega
  have hq : valBE shape d = (0 : ℤ) + (((valBE shape d).toNat : ℕ) : ℤ) := by omega
  simp only [Compact]
  rw [hq, compactAux_read a strides offset _ out 0 (valBE shape d).toNat hc, hgd]

/-- Witness for `compact_row_major`: the two tables of the spec, plus one
instance of the general statement at index `[1,2]` of the transposed view. -/
theorem compact_row_major_witness :
    Compact (listBuf [0, 1, 2, 3, 4, 5]) (fun _ => 0) [2, 3] [1, 2] 0
        (valBE [2, 3] [1, 2])
      = listBuf [0, 1, 2, 3, 4, 5] (posOf [1, 2] 0 [1, 2])
    ∧ Compact (listBuf [0, 1, 2, 3, 4, 5]) (fun _ => 0) [2, 3] [3, 1] 0 0 = 0
    ∧ Compact (listBuf [0, 1, 2, 3, 4, 5]) (fun _ => 0) [2, 3] [3, 1] 0 1 = 1
    ∧ Compact (listBuf [0, 1, 2, 3, 4, 5]) (fun _ => 0) [2, 3] [3, 1] 0 2 = 2
    ∧ Compact (listBuf [0, 1, 2, 3, 4, 5]) (fun _ => 0) [2, 3] [3, 1] 0 3 = 3
    ∧ Compact (listBuf [0, 1, 2, 3, 4, 5]) (fun _ => 0) [2, 3] [3, 1] 0 4 = 4
    ∧ Compact (listBuf [0, 1, 2, 3, 4, 5]) (fun _ => 0) [2, 3] [3, 1] 0 5 = 5
    ∧ Compact (listBuf [0, 1, 2, 3, 4, 5]) (fun _ => 0) [2, 3] [1, 2] 0 0 = 0
    ∧ Compact (listBuf [0, 1, 2, 3, 4, 5]) (fun _ => 0) [2, 3] [1, 2] 0 1 = 2
    ∧ Compact (listBuf [0, 1, 2, 3, 4, 5]) (fun _ => 0) [2, 3] [1, 2] 0 2 = 4
    ∧ Compact (listBuf [0, 1, 2, 3, 4, 5]) (fun _ => 0) [2, 3] [1, 2] 0 3 = 1
    ∧ Compact (listBuf [0, 1, 2, 3, 4, 5]) (fun _ => 0) [2, 3] [1, 2] 0 4 = 3
    ∧ Compact (listBuf [0, 1, 2, 3, 4, 5]) (fun _ => 0) [2, 3] [1, 2] 0 5 = 5 := by
  refine ⟨compact_row_major (listBuf [0, 1, 2, 3, 4, 5]) (fun _ => 0) [2, 3] [1, 2] 0
    (by decide) (by decide) [1, 2] (by decide), ?_⟩
  decide

/-- C1: round-trip.  For a nonempty all-positive shape whose strided view is
non-overlapping (distinct in-range index vectors land on distinct
positions), compacting and then scattering back with `EwiseSetitem` into a
zeroed buffer of the same layout reproduces every original strided value at
its original position. -/
theorem compact_scatter_roundtrip (a out1 : Buf) (shape strides : List ℤ) (offset : ℤ)
    (hne : shape ≠ []) (hpos : allPos shape = true)
    (hinj : ∀ d e : List ℤ, inRangeBE shape d = true → inRangeBE shape e = true →
      posOf strides offset d = posOf strides offset e → d = e)
    (d : List ℤ) (hd : inRangeBE shape d = true) :
    EwiseSetitem (Compact a out1 shape strides offset) (fun _ => 0) shape strides offset
        (posOf strides offset d)
      = a (posOf strides offset d) := by
  have h0 := zeros_inRange shape hpos
  have hv0 := zeros_val shape
  have hb := valBE_bounds shape d hd
  have hlen : (indexSeq shape (prodL shape).toNat (zerosIdx shape)).length
      = (prodL shape).toNat := by
    rw [indexSeq_length shape hne (prodL shape).toNat (zerosIdx shape) h0, hv0]
    omega
  have hc : (valBE shape d).toNat
      < (indexSeq shape (prodL shape).toNat (zerosIdx shape)).length := by
    rw [hlen]
    omega
  have hget := indexSeq_getD shape hne (prodL shape).toNat (zerosIdx shape) h0
    (valBE shape d).toNat hc
  have hgd : (indexSeq shape (prodL shape).toNat (zerosIdx shape)).getD
      (valBE shape d).toNat [] = d := by
    refine valBE_inj shape _ d hget.1 hd ?_
    rw [hget.2, hv0]
    omega
  have hinj2 : ∀ c2 : ℕ, c2 < (indexSeq shape (prodL shape).toNat (zerosIdx shape)).length →
      posOf strides offset
          ((indexSeq shape (prodL shape).toNat (zerosIdx shape)).getD c2 [])
        = posOf strides offset
          ((indexSeq shape (prodL shape).toNat (zerosIdx shape)).getD
            (valBE shape d).toNat []) →
      c2 = (valBE shape d).toNat := by
    intro c2 hc2 he
    have hg2 := indexSeq_getD shape hne (prodL shape).toNat (zerosIdx shape) h0 c2 hc2
    have heq := hinj _ _ hg2.1 hget.1 he
    have hveq := congrArg (valBE shape) heq
    rw [hg2.2, hget.2] at hveq
    omega
  rw [show posOf strides offset d
      = posOf strides offset
        ((indexSeq shape (prodL shape).toNat (zerosIdx shape)).getD
          (valBE shape d).toNat []) from by rw [hgd]]
  simp only [EwiseSetitem]
  rw [scatterAux_at (Compact a out1 shape strides offset) strides offset _ (fun _ => 0) 0
    (valBE shape d).toNat hc hinj2]
  simp only [Compact]
  rw [compactAux_read a strides offset _ out1 0 (valBE shape d).toNat hc]

/-- Witness for `compact_scatter_roundtrip`: the transposed `[2,3]` view
with strides `[1,2]` over `[0…5]`, read back at index vector `[1,2]`
(strided position 5). -/
theorem compact_scatter_roundtrip_witness :
    EwiseSetitem
        (Compact (listBuf [0, 1, 2, 3, 4, 5]) (fun _ => 0) [2, 3] [1, 2] 0)
        (fun _ => 0) [2, 3] [1, 2] 0 (posOf [1, 2] 0 [1, 2])
      = listBuf [0, 1, 2, 3, 4, 5] (posOf [1, 2] 0 [1, 2]) := by
  have helim : ∀ d : List ℤ, inRangeBE [(2 : ℤ), 3] d = true →
      ∃ d0 d1, d = [d0, d1] ∧ 0 ≤ d0 ∧ d0 < 2 ∧ 0 ≤ d1 ∧ d1 < 3 := by
    intro d hd2
    have hlen : d.length = 2 := by
      have h3 := inRangeLE_length _ _ hd2
      simpa using h3
    rcases List.length_eq_two.mp hlen with ⟨d0, d1, rfl⟩
    refine ⟨d0, d1, rfl, ?_⟩
    simp only [inRangeBE, List.reverse_cons, List.reverse_nil, List.nil_append,
      List.cons_append, inRangeLE, Bool.and_eq_true, decide_eq_true_eq] at hd2
    omega
  refine compact_scatter_roundtrip (listBuf [0, 1, 2, 3, 4, 5]) (fun _ => 0) [2, 3] [1, 2] 0
    (by decide) (by decide) ?_ [1, 2] (by decide)
  intro d e hd he hpe
  rcases helim d hd with ⟨d0, d1, rfl, hd0, hd1, hd2, hd3⟩
  rcases helim e he with ⟨e0, e1, rfl, he0, he1, he2, he3⟩
  simp only [posOf, List.zipWith_cons_cons, List.zipWith_nil_right, List.sum_cons,
    List.sum_nil] at hpe
  have hcomp : d0 = e0 ∧ d1 = e1 := by omega
  rw [hcomp.1, hcomp.2]

/-- C2 (amended): for every shape of rank at least 1 with all extents
positive, the mixed-radix counter traversal of `Compact`/`EwiseSetitem`
terminates after visiting exactly `prodL shape` index vectors — with any
fuel the visited sequence has length `min fuel (prodL shape)`, so the loop
stops at exactly `prodL shape` visits, when the most significant dimension
overflows — and the counted loop of `ScalarSetitem`, run for its first
`prodL shape` iterations, visits exactly the same index vectors. -/
theorem counter_termination (shape : List ℤ) (hne : shape ≠ []) (hpos : allPos shape = true) :
    (∀ fuel : ℕ, (indexSeq shape fuel (zerosIdx shape)).length
        = min fuel (prodL shape).toNat)
    ∧ wrapSeq shape (prodL shape).toNat (zerosIdx shape)
        = indexSeq shape (prodL shape).toNat (zerosIdx shape) := by
  have h0 := zeros_inRange shape hpos
  have hv0 := zeros_val shape
  have hb := valBE_bounds shape (zerosIdx shape) h0
  constructor
  · intro fuel
    rw [indexSeq_length shape hne fuel (zerosIdx shape) h0, hv0, sub_zero]
  · refine wrapSeq_eq shape hne (prodL shape).toNat (zerosIdx shape) h0 ?_
    rw [hv0]
    omega

/-- Counterexample to C2 as stated: for the rank-0 shape `[]` the increment
never signals termination (`some []` forever), so the traversal visits as
many elements as it is given fuel — here 2, although `prodL [] = 1` — and
for the zero-extent shape `[0]` it visits one element although
`prodL [0] = 0`; the claimed ``exactly product(shape) visits, including
rank 0'' is false on the code. -/
theorem counter_rank0_cex :
    incrIndex ([] : List ℤ) [] = some []
    ∧ (indexSeq ([] : List ℤ) 2 (zerosIdx [])).length = 2
    ∧ prodL ([] : List ℤ) = 1
    ∧ (indexSeq [(0 : ℤ)] 2 (zerosIdx [(0 : ℤ)])).length = 1
    ∧ prodL [(0 : ℤ)] = 0 := by
  decide

/-- Witness for `counter_termination` at shape `[2,3]`: with fuel 7 the
traversal visits `min 7 6 = 6` index vectors, and `ScalarSetitem`'s counter
visits the same six vectors. -/
theorem counter_termination_witness :
    (indexSeq [(2 : ℤ), 3] 7 (zerosIdx [(2 : ℤ), 3])).length
      = min 7 (prodL [(2 : ℤ), 3]).toNat
    ∧ wrapSeq [(2 : ℤ), 3] (prodL [(2 : ℤ), 3]).toNat (zerosIdx [(2 : ℤ), 3])
      = indexSeq [(2 : ℤ), 3] (prodL [(2 : ℤ), 3]).toNat (zerosIdx [(2 : ℤ), 3]) := by
  have h := counter_termination [(2 : ℤ), 3] (by decide) (by decide)
  exact ⟨h.1 7, h.2⟩

end NeedleCpu
